import Mathlib

/-!
Verification development for the fake SageMaker client of this repository
(tests/sagefaker.py).  The file contains a shallow embedding of the client:

* a value-level model, in which Python objects are immutable value trees and
  deep copies are identities (sections below up to the operation machinery);
* a heap-level model with explicit addresses, used to settle the aliasing and
  deep-copy properties of create/describe (kwargs dicts hold addresses of the
  caller's objects, and copy.deepcopy allocates fresh cells);
* a yield-time-indexed model of the Paginator's generator, used to settle the
  snapshot-versus-live-reference question for in-progress page sequences.
-/

namespace SageFaker

/-- Python values held in record fields.  Lists and dicts are modelled as
cons-chains (a Python list becomes a vcons chain ending in vnil, a dict a
dcons chain ending in dnil, in insertion order).  Structural equality of
these trees models Python deep equality. -/
inductive Value where
  | str (s : String)
  | num (n : Int)
  | vnil
  | vcons (hd tl : Value)
  | dnil
  | dcons (k : String) (v tl : Value)
deriving DecidableEq

/-- Rendering of a value inside an f-string (Python str()).  The client only
ever formats the endpoint name, which is a string in every claim; the
rendering of containers is a placeholder and is never relied upon. -/
def Value.pyStr : Value → String
  | .str s => s
  | .num n => toString n
  | .vnil => "[]"
  | .vcons _ _ => "[...]"
  | .dnil => "<dict>"
  | .dcons _ _ _ => "<dict>"

/-- A record: the keyword-argument mapping of a create call, or a stored
resource.  Python keyword arguments have pairwise distinct names; the list
may syntactically repeat a key, in which case lookups see the first
occurrence, matching dict semantics for the states reachable here. -/
abbrev Rec := List (String × Value)

/-- Field lookup, kw[k] (first occurrence). -/
def getField (r : Rec) (k : String) : Option Value :=
  (r.find? (fun p => p.1 == k)).map Prod.snd

/-- The key set of a record, Python set(kw). -/
def keySet (r : Rec) : Finset String :=
  (r.map Prod.fst).toFinset

/-- Error taxonomy of the spec.  Mapping to the code: schemaError and
duplicateResource are the two AssertionErrors of create (in that order),
notFound the AssertionError of describe, invariantViolation the RuntimeError
of the _get helpers, argumentError and timeoutOrNotFound the two
AssertionErrors of Waiter.wait, unsupportedOperation the NotImplementedError
of get_paginator/get_waiter.  keyError models Python KeyError on a missing
dict key (unreachable on the paths exercised here), and outOfFuel is a model
artifact of the fuel-indexed heap functions, not a Python behaviour. -/
inductive Err where
  | schemaError
  | duplicateResource
  | notFound
  | invariantViolation
  | argumentError
  | timeoutOrNotFound
  | unsupportedOperation
  | keyError
  | outOfFuel
deriving DecidableEq

deriving instance DecidableEq for Except

/-- The list comprehension of the _get helpers:
[t for t in collection if t[idK] == name].  A stored record always contains
the identity key (enforced by create), so the KeyError branch of the
comprehension is unreachable; a record without the key is treated as a
non-match. -/
def idFilter (idK : String) (name : Value) (l : List Rec) : List Rec :=
  l.filter (fun t => decide (getField t idK = some name))

/-- Number of records in the collection whose identity field equals name. -/
def countId (idK : String) (l : List Rec) (name : Value) : Nat :=
  (idFilter idK name l).length

/-- The shared shape of _get_training_job, _get_model, _get_endpoint_config
and _get_endpoint: no match gives the not-found sentinel, a single match is
returned, several matches raise (RuntimeError in the code, the spec's
InvariantViolation). -/
def getBy (idK : String) (l : List Rec) (name : Value) : Except Err (Option Rec) :=
  match idFilter idK name l with
  | [] => .ok none
  | [j] => .ok (some j)
  | _ => .error .invariantViolation

/-- The shared shape of the create methods (except create_endpoint, which
also derives a field): assert set(kw) == expected; assert _get(...) is None;
append kw; return deepcopy(kw).  At the value level a deep copy is the
identity, so the returned record is kw itself. -/
def createIn (expected : Finset String) (idK : String) (l : List Rec) (kw : Rec) :
    Except Err (Rec × List Rec) :=
  if keySet kw = expected then
    match getField kw idK with
    | none => .error .keyError
    | some nm =>
      match getBy idK l nm with
      | .error e => .error e
      | .ok (some _) => .error .duplicateResource
      | .ok none => .ok (kw, l ++ [kw])
  else .error .schemaError

/-- The shared shape of the describe methods: _get, assert not None, return
deepcopy (an identity at the value level). -/
def describeIn (idK : String) (l : List Rec) (name : Value) : Except Err Rec :=
  match getBy idK l name with
  | .error e => .error e
  | .ok none => .error .notFound
  | .ok (some t) => .ok t

/-- The client state: the region passed to the constructor and the four
collections, each starting empty. -/
structure SageFakerClient where
  aws_region : String
  training_jobs : List Rec
  models : List Rec
  endpoint_configs : List Rec
  endpoints : List Rec
deriving DecidableEq

/-- SageFakerClient.__init__(aws_region). -/
def SageFakerClient.make (region : String) : SageFakerClient :=
  ⟨region, [], [], [], []⟩

/-- Required field set of create_training_job. -/
def tjKeys : Finset String :=
  {"TrainingJobName", "AlgorithmSpecification", "EnableNetworkIsolation",
   "HyperParameters", "InputDataConfig", "OutputDataConfig", "ResourceConfig",
   "RoleArn", "StoppingCondition", "Tags"}

/-- Required field set of create_model. -/
def modelKeys : Finset String :=
  {"ModelName", "PrimaryContainer", "ExecutionRoleArn", "Tags",
   "EnableNetworkIsolation"}

/-- Required field set of create_endpoint_config. -/
def epcKeys : Finset String :=
  {"EndpointConfigName", "Tags", "ProductionVariants"}

/-- Required field set of create_endpoint (the caller-supplied part;
EndpointArn is added by the store afterwards). -/
def epKeys : Finset String :=
  {"EndpointConfigName", "EndpointName", "Tags"}

/-- SageFakerClient._get_training_job. -/
def get_training_job (c : SageFakerClient) (name : Value) : Except Err (Option Rec) :=
  getBy "TrainingJobName" c.training_jobs name

/-- SageFakerClient._get_model. -/
def get_model (c : SageFakerClient) (name : Value) : Except Err (Option Rec) :=
  getBy "ModelName" c.models name

/-- SageFakerClient._get_endpoint_config. -/
def get_endpoint_config (c : SageFakerClient) (name : Value) : Except Err (Option Rec) :=
  getBy "EndpointConfigName" c.endpoint_configs name

/-- SageFakerClient._get_endpoint. -/
def get_endpoint (c : SageFakerClient) (name : Value) : Except Err (Option Rec) :=
  getBy "EndpointName" c.endpoints name

/-- SageFakerClient.create_training_job.  Methods are modelled with explicit
state passing: the result carries the record returned to the caller and the
client state after the call. -/
def create_training_job (c : SageFakerClient) (kw : Rec) :
    Except Err (Rec × SageFakerClient) :=
  match createIn tjKeys "TrainingJobName" c.training_jobs kw with
  | .error e => .error e
  | .ok (r, l) => .ok (r, { c with training_jobs := l })

/-- SageFakerClient.describe_training_job. -/
def describe_training_job (c : SageFakerClient) (name : Value) :
    Except Err (Rec × SageFakerClient) :=
  match describeIn "TrainingJobName" c.training_jobs name with
  | .error e => .error e
  | .ok r => .ok (r, c)

/-- SageFakerClient.create_model. -/
def create_model (c : SageFakerClient) (kw : Rec) :
    Except Err (Rec × SageFakerClient) :=
  match createIn modelKeys "ModelName" c.models kw with
  | .error e => .error e
  | .ok (r, l) => .ok (r, { c with models := l })

/-- SageFakerClient.describe_model. -/
def describe_model (c : SageFakerClient) (name : Value) :
    Except Err (Rec × SageFakerClient) :=
  match describeIn "ModelName" c.models name with
  | .error e => .error e
  | .ok r => .ok (r, c)

/-- SageFakerClient.create_endpoint_config. -/
def create_endpoint_config (c : SageFakerClient) (kw : Rec) :
    Except Err (Rec × SageFakerClient) :=
  match createIn epcKeys "EndpointConfigName" c.endpoint_configs kw with
  | .error e => .error e
  | .ok (r, l) => .ok (r, { c with endpoint_configs := l })

/-- SageFakerClient.describe_endpoint_config. -/
def describe_endpoint_config (c : SageFakerClient) (name : Value) :
    Except Err (Rec × SageFakerClient) :=
  match describeIn "EndpointConfigName" c.endpoint_configs name with
  | .error e => .error e
  | .ok r => .ok (r, c)

/-- The f-string of create_endpoint:
arn:aws:sagemaker:{region}:12345:endpoint/{name}. -/
def mkEndpointArn (region : String) (nm : Value) : String :=
  "arn:aws:sagemaker:" ++ region ++ ":12345:endpoint/" ++ nm.pyStr

/-- SageFakerClient.create_endpoint.  After the schema and duplicate checks
the method assigns kw["EndpointArn"] (a new key, hence appended in insertion
order) before storing kw and returning its deep copy. -/
def create_endpoint (c : SageFakerClient) (kw : Rec) :
    Except Err (Rec × SageFakerClient) :=
  if keySet kw = epKeys then
    match getField kw "EndpointName" with
    | none => .error .keyError
    | some nm =>
      match getBy "EndpointName" c.endpoints nm with
      | .error e => .error e
      | .ok (some _) => .error .duplicateResource
      | .ok none =>
        .ok (kw ++ [("EndpointArn", .str (mkEndpointArn c.aws_region nm))],
             { c with endpoints :=
                c.endpoints ++ [kw ++ [("EndpointArn", .str (mkEndpointArn c.aws_region nm))]] })
  else .error .schemaError

/-- SageFakerClient.describe_endpoint. -/
def describe_endpoint (c : SageFakerClient) (name : Value) :
    Except Err (Rec × SageFakerClient) :=
  match describeIn "EndpointName" c.endpoints name with
  | .error e => .error e
  | .ok r => .ok (r, c)

/-- A page produced by the paginator: the dict {summary_title: items},
modelled as an association list (single-key by construction). -/
abbrev Page := List (String × List Rec)

/-- The fake paginator.  In Python the items field is a reference to the
client's live collection list; this structure holds the list value, and the
reference behaviour of an in-progress generator is modelled separately by
paginateLive below. -/
structure Paginator where
  summary_title : String
  items : List Rec
  per_page : Nat := 2
deriving DecidableEq

/-- Python range(start, stop, step) for a positive step.  range raises
ValueError on step = 0; that argument never occurs here (per_page is 2 at
every call site) and is modelled as the empty range. -/
def pyRange (start stop step : Nat) : List Nat :=
  if step = 0 then []
  else (List.range ((stop - start + step - 1) / step)).map (fun k => start + k * step)

/-- Paginator.paginate over the list value held at pagination time: one page
per index i of range(0, len(items), per_page), holding the deep copy (an
identity at the value level) of items[i : i + per_page]. -/
def Paginator.paginate (p : Paginator) : List Page :=
  (pyRange 0 p.items.length p.per_page).map
    (fun i => [(p.summary_title, (p.items.drop i).take p.per_page)])

/-- Concatenation of the items of a list of pages. -/
def pagesJoin (pgs : List Page) : List Rec :=
  (pgs.map (fun pg => (pg.map Prod.snd).flatten)).flatten

/-- Model of an in-progress paginate() generator over the live collection.
stateAt k is the value of the shared items list at the moment the k-th page
is requested.  The range of start indices is computed from the list length
at the first request (the k-th start index is k * per_page), while each
yielded slice reads the list as it is at that yield. -/
def paginateLive (title : String) (pp : Nat) (stateAt : Nat → List Rec) : List Page :=
  (List.range (pyRange 0 (stateAt 0).length pp).length).map
    (fun k => [(title, ((stateAt k).drop (k * pp)).take pp)])

/-- The fake waiter: the keyword name selecting the item, and the lookup
function (one of the client's _get helpers, which can itself raise the
invariant-violation error). -/
structure Waiter where
  selector_name : String
  selector : Value → Except Err (Option Rec)

/-- Waiter.wait(**kw): assert set(kw) == {selector_name, "WaiterConfig"},
then assert that the single lookup with kw[selector_name] finds a record. -/
def Waiter.wait (w : Waiter) (kw : Rec) : Except Err Unit :=
  if keySet kw = {w.selector_name, "WaiterConfig"} then
    match getField kw w.selector_name with
    | none => .error .keyError
    | some v =>
      match w.selector v with
      | .error e => .error e
      | .ok none => .error .timeoutOrNotFound
      | .ok (some _) => .ok ()
  else .error .argumentError

/-- SageFakerClient.get_paginator: dispatch on the four supported list
operations, NotImplementedError otherwise.  Each paginator is built from the
corresponding collection with the default page size 2. -/
def get_paginator (c : SageFakerClient) (name : String) :
    Except Err (Paginator × SageFakerClient) :=
  if name = "list_training_jobs" then .ok (⟨"TrainingJobSummaries", c.training_jobs, 2⟩, c)
  else if name = "list_models" then .ok (⟨"Models", c.models, 2⟩, c)
  else if name = "list_endpoints" then .ok (⟨"Endpoints", c.endpoints, 2⟩, c)
  else if name = "list_endpoint_configs" then .ok (⟨"EndpointConfigs", c.endpoint_configs, 2⟩, c)
  else .error .unsupportedOperation

/-- SageFakerClient.get_waiter: the single supported waiter selects a
training job by TrainingJobName via _get_training_job. -/
def get_waiter (c : SageFakerClient) (name : String) :
    Except Err (Waiter × SageFakerClient) :=
  if name = "training_job_completed_or_stopped" then
    .ok (⟨"TrainingJobName", get_training_job c⟩, c)
  else .error .unsupportedOperation

/-- A get_waiter followed by wait, as a caller performs it. -/
def client_wait (c : SageFakerClient) (wname : String) (kw : Rec) :
    Except Err (Unit × SageFakerClient) :=
  match get_waiter c wname with
  | .error e => .error e
  | .ok (w, _) =>
    match w.wait kw with
    | .error e => .error e
    | .ok _ => .ok ((), c)

/-- One client operation: a create, describe, list or wait call. -/
inductive Op where
  | createTJ (kw : Rec)
  | createMo (kw : Rec)
  | createEPC (kw : Rec)
  | createEP (kw : Rec)
  | describeTJ (name : Value)
  | describeMo (name : Value)
  | describeEPC (name : Value)
  | describeEP (name : Value)
  | listOp (name : String)
  | waitOp (wname : String) (kw : Rec)

/-- The visible result of an operation. -/
inductive OpResult where
  | recR (r : Rec)
  | pagR (p : Paginator)
  | waitR

/-- Run one operation against the client. -/
def applyOp (c : SageFakerClient) : Op → Except Err (OpResult × SageFakerClient)
  | .createTJ kw =>
    match create_training_job c kw with
    | .error e => .error e
    | .ok (r, c') => .ok (.recR r, c')
  | .createMo kw =>
    match create_model c kw with
    | .error e => .error e
    | .ok (r, c') => .ok (.recR r, c')
  | .createEPC kw =>
    match create_endpoint_config c kw with
    | .error e => .error e
    | .ok (r, c') => .ok (.recR r, c')
  | .createEP kw =>
    match create_endpoint c kw with
    | .error e => .error e
    | .ok (r, c') => .ok (.recR r, c')
  | .describeTJ name =>
    match describe_training_job c name with
    | .error e => .error e
    | .ok (r, c') => .ok (.recR r, c')
  | .describeMo name =>
    match describe_model c name with
    | .error e => .error e
    | .ok (r, c') => .ok (.recR r, c')
  | .describeEPC name =>
    match describe_endpoint_config c name with
    | .error e => .error e
    | .ok (r, c') => .ok (.recR r, c')
  | .describeEP name =>
    match describe_endpoint c name with
    | .error e => .error e
    | .ok (r, c') => .ok (.recR r, c')
  | .listOp name =>
    match get_paginator c name with
    | .error e => .error e
    | .ok (p, c') => .ok (.pagR p, c')
  | .waitOp wname kw =>
    match client_wait c wname kw with
    | .error e => .error e
    | .ok (_, c') => .ok (.waitR, c')

/-- The state after an operation: a raised error propagates to the caller and
leaves the state as it was (every assert of the code precedes its method's
mutation). -/
def step (c : SageFakerClient) (op : Op) : SageFakerClient :=
  match applyOp c op with
  | .error _ => c
  | .ok (_, c') => c'

/-- The state after a sequence of operations. -/
def run (c : SageFakerClient) (ops : List Op) : SageFakerClient :=
  ops.foldl step c

/-- At most one record per identity value. -/
def Unique (idK : String) (l : List Rec) : Prop :=
  ∀ name : Value, countId idK l name ≤ 1

/-- The uniqueness invariant over all four collections. -/
def Inv (c : SageFakerClient) : Prop :=
  Unique "TrainingJobName" c.training_jobs ∧ Unique "ModelName" c.models ∧
  Unique "EndpointConfigName" c.endpoint_configs ∧ Unique "EndpointName" c.endpoints

/-!
Heap-level model.  Python objects live on a heap of cells addressed by
naturals; container cells hold the addresses of their elements, so aliasing
between the caller's objects and stored records is representable.  Values
resolve to the trees of the value-level model.  The resolution and copying
functions are indexed by fuel; the claims provide sufficient fuel (Python
deepcopy also terminates on cyclic data via its memo table, a case no claim
exercises).
-/

/-- A heap address. -/
abbrev Addr := Nat

/-- A heap cell: an atomic immutable (string or number) or a container
holding addresses. -/
inductive HObj where
  | str (s : String)
  | num (n : Int)
  | listO (xs : List Addr)
  | dictO (xs : List (String × Addr))
deriving DecidableEq

/-- The heap: cell at address a is the a-th entry; allocation appends. -/
abbrev Heap := List HObj

/-- Resolution of a list of element addresses into a value chain, given a
resolver for single addresses. -/
def chainL (res : Addr → Option Value) : List Addr → Option Value
  | [] => some .vnil
  | a :: as =>
    match res a with
    | none => none
    | some v =>
      match chainL res as with
      | none => none
      | some tl => some (.vcons v tl)

/-- Resolution of a dict's key/address pairs into a value chain. -/
def chainD (res : Addr → Option Value) : List (String × Addr) → Option Value
  | [] => some .dnil
  | (k, a) :: as =>
    match res a with
    | none => none
    | some v =>
      match chainD res as with
      | none => none
      | some tl => some (.dcons k v tl)

/-- The observable deep value of the object at an address. -/
def resolve : Nat → Heap → Addr → Option Value
  | 0, _, _ => none
  | fuel + 1, h, a =>
    match h[a]? with
    | none => none
    | some (HObj.str s) => some (.str s)
    | some (HObj.num n) => some (.num n)
    | some (HObj.listO xs) => chainL (fun b => resolve fuel h b) xs
    | some (HObj.dictO xs) => chainD (fun b => resolve fuel h b) xs

/-- Copy of a list of element addresses, threading the heap through the
copies, given a copier for single addresses. -/
def copyChainL (cp : Heap → Addr → Option (Heap × Addr)) :
    Heap → List Addr → Option (Heap × List Addr)
  | h, [] => some (h, [])
  | h, a :: as =>
    match cp h a with
    | none => none
    | some (h1, a') =>
      match copyChainL cp h1 as with
      | none => none
      | some (h2, as') => some (h2, a' :: as')

/-- Copy of a dict's key/address pairs, threading the heap. -/
def copyChainD (cp : Heap → Addr → Option (Heap × Addr)) :
    Heap → List (String × Addr) → Option (Heap × List (String × Addr))
  | h, [] => some (h, [])
  | h, (k, a) :: as =>
    match cp h a with
    | none => none
    | some (h1, a') =>
      match copyChainD cp h1 as with
      | none => none
      | some (h2, as') => some (h2, (k, a') :: as')

/-- copy.deepcopy: recursively copies the object at an address into fresh
cells and returns the address of the copy.  Atomic immutables are copied
here where Python shares them, which is observationally equivalent since
they cannot be mutated; Python's memo table (sharing inside a copy) is not
modelled, which no claim observes. -/
def deepcopy : Nat → Heap → Addr → Option (Heap × Addr)
  | 0, _, _ => none
  | fuel + 1, h, a =>
    match h[a]? with
    | none => none
    | some (HObj.str s) => some (h ++ [.str s], h.length)
    | some (HObj.num n) => some (h ++ [.num n], h.length)
    | some (HObj.listO xs) =>
      match copyChainL (fun h2 b => deepcopy fuel h2 b) h xs with
      | none => none
      | some (h2, xs') => some (h2 ++ [.listO xs'], h2.length)
    | some (HObj.dictO xs) =>
      match copyChainD (fun h2 b => deepcopy fuel h2 b) h xs with
      | none => none
      | some (h2, xs') => some (h2 ++ [.dictO xs'], h2.length)

/-- Deep copy of a kwargs mapping (copy.deepcopy of the kw dict): copy every
value, keeping the keys. -/
def deepcopyKw (fuel : Nat) (h : Heap) (kw : List (String × Addr)) :
    Option (Heap × List (String × Addr)) :=
  copyChainD (fun h2 b => deepcopy fuel h2 b) h kw

/-- The observable deep value of a kwargs mapping (the dict the caller
passed, resolved field by field). -/
def resolveKw (fuel : Nat) (h : Heap) (kw : List (String × Addr)) : Option Value :=
  chainD (fun b => resolve fuel h b) kw

/-- Heap-level client state: the constructor's region, the heap, and the
four collections.  A stored record is the kwargs dict of its create call: a
list of field names paired with the addresses of the caller's argument
objects.  The kwargs dict itself is fresh at every call and never aliased by
the caller, so its pairs are stored inline. -/
structure HState where
  aws_region : String
  heap : Heap
  training_jobs : List (List (String × Addr))
  models : List (List (String × Addr))
  endpoint_configs : List (List (String × Addr))
  endpoints : List (List (String × Addr))
deriving DecidableEq

/-- Field lookup in a kwargs mapping at the heap level. -/
def hfind (kw : List (String × Addr)) (k : String) : Option Addr :=
  (kw.find? (fun p => p.1 == k)).map Prod.snd

/-- The key set of a heap-level kwargs mapping. -/
def hKeySet (kw : List (String × Addr)) : Finset String :=
  (kw.map Prod.fst).toFinset

/-- The comparison t[idK] == name of the _get helpers at the heap level:
Python == deep-compares the two objects, here by resolving both addresses.
With sufficient fuel resolution succeeds on every well-formed object; a
failed resolution is treated as a non-match. -/
def hmatches (fuel : Nat) (heap : Heap) (idK : String) (na : Addr)
    (t : List (String × Addr)) : Bool :=
  match hfind t idK with
  | none => false
  | some ta =>
    match resolve fuel heap ta, resolve fuel heap na with
    | some v1, some v2 => decide (v1 = v2)
    | _, _ => false

/-- The shared shape of the _get helpers at the heap level. -/
def hgetBy (fuel : Nat) (heap : Heap) (idK : String)
    (l : List (List (String × Addr))) (na : Addr) :
    Except Err (Option (List (String × Addr))) :=
  match l.filter (hmatches fuel heap idK na) with
  | [] => .ok none
  | [j] => .ok (some j)
  | _ => .error .invariantViolation

/-- SageFakerClient._get_training_job at the heap level. -/
def hget_training_job (fuel : Nat) (heap : Heap)
    (jobs : List (List (String × Addr))) (na : Addr) :
    Except Err (Option (List (String × Addr))) :=
  hgetBy fuel heap "TrainingJobName" jobs na

/-- The shared shape of the create methods at the heap level (except
create_endpoint, which also derives a field): after the schema and duplicate
checks, self._collection.append(kw) stores the kwargs mapping itself (the
caller's value addresses, uncopied), and the method returns
copy.deepcopy(kw), a fresh dict of fresh copies. -/
def hcreateIn (fuel : Nat) (expected : Finset String) (idK : String) (heap : Heap)
    (l : List (List (String × Addr))) (kw : List (String × Addr)) :
    Except Err (Addr × Heap × List (List (String × Addr))) :=
  if hKeySet kw = expected then
    match hfind kw idK with
    | none => .error .keyError
    | some na =>
      match hgetBy fuel heap idK l na with
      | .error e => .error e
      | .ok (some _) => .error .duplicateResource
      | .ok none =>
        match deepcopyKw fuel heap kw with
        | none => .error .outOfFuel
        | some (h2, kw2) => .ok (h2.length, h2 ++ [.dictO kw2], l ++ [kw])
  else .error .schemaError

/-- SageFakerClient.create_training_job at the heap level. -/
def hcreate_training_job (fuel : Nat) (st : HState) (kw : List (String × Addr)) :
    Except Err (Addr × HState) :=
  match hcreateIn fuel tjKeys "TrainingJobName" st.heap st.training_jobs kw with
  | .error e => .error e
  | .ok (a, h, l) => .ok (a, { st with heap := h, training_jobs := l })

/-- SageFakerClient.create_model at the heap level. -/
def hcreate_model (fuel : Nat) (st : HState) (kw : List (String × Addr)) :
    Except Err (Addr × HState) :=
  match hcreateIn fuel modelKeys "ModelName" st.heap st.models kw with
  | .error e => .error e
  | .ok (a, h, l) => .ok (a, { st with heap := h, models := l })

/-- SageFakerClient.create_endpoint_config at the heap level. -/
def hcreate_endpoint_config (fuel : Nat) (st : HState) (kw : List (String × Addr)) :
    Except Err (Addr × HState) :=
  match hcreateIn fuel epcKeys "EndpointConfigName" st.heap st.endpoint_configs kw with
  | .error e => .error e
  | .ok (a, h, l) => .ok (a, { st with heap := h, endpoint_configs := l })

/-- SageFakerClient.create_endpoint at the heap level: after the schema and
duplicate checks the f-string reads the name object (resolve, then render),
the fresh arn string object is allocated, kw["EndpointArn"] is assigned to
it (a new key, appended in insertion order), the kwargs mapping itself is
appended to the collection, and a deep copy of it is returned. -/
def hcreate_endpoint (fuel : Nat) (st : HState) (kw : List (String × Addr)) :
    Except Err (Addr × HState) :=
  if hKeySet kw = epKeys then
    match hfind kw "EndpointName" with
    | none => .error .keyError
    | some na =>
      match hgetBy fuel st.heap "EndpointName" st.endpoints na with
      | .error e => .error e
      | .ok (some _) => .error .duplicateResource
      | .ok none =>
        match resolve fuel st.heap na with
        | none => .error .outOfFuel
        | some nv =>
          match deepcopyKw fuel (st.heap ++ [HObj.str (mkEndpointArn st.aws_region nv)])
              (kw ++ [("EndpointArn", st.heap.length)]) with
          | none => .error .outOfFuel
          | some (h2, kw2) =>
            .ok (h2.length,
              { st with heap := h2 ++ [HObj.dictO kw2],
                        endpoints := st.endpoints ++ [kw ++ [("EndpointArn", st.heap.length)]] })
  else .error .schemaError

/-- SageFakerClient.describe_training_job at the heap level: look the record
up and return the address of a fresh deep copy. -/
def hdescribe_training_job (fuel : Nat) (st : HState) (na : Addr) :
    Except Err (Addr × Heap) :=
  match hget_training_job fuel st.heap st.training_jobs na with
  | .error e => .error e
  | .ok none => .error .notFound
  | .ok (some t) =>
    match deepcopyKw fuel st.heap t with
    | none => .error .outOfFuel
    | some (h2, t2) => .ok (h2.length, h2 ++ [.dictO t2])

/-- Within fuel steps, the object graph rooted at an address exists entirely
in cells at addresses at least lo: the root address and, recursively, every
element or value address of a container cell are at least lo.  Holding with
lo = the pre-call heap length, this says the graph is built entirely from
cells allocated by the call. -/
def freshGraph (lo : Nat) : Nat → Heap → Addr → Bool
  | 0, _, _ => false
  | fuel + 1, h, a =>
    decide (lo ≤ a) &&
    (match h[a]? with
     | none => false
     | some (HObj.str _) => true
     | some (HObj.num _) => true
     | some (HObj.listO xs) => xs.all (fun b => freshGraph lo fuel h b)
     | some (HObj.dictO xs) => xs.all (fun p => freshGraph lo fuel h p.2))

/-- What create's copy.deepcopy guarantees about the returned record: the
final heap extends the base heap (the heap the call no longer writes to) by
appended cells only; the returned address is fresh; the whole graph of the
returned record lives in fresh cells; mutating any fresh cell - in
particular any cell of the returned record - changes no resolution that was
valid on the base heap (so the store, whose records resolve there, is
unaffected); and mutating any base cell - in particular any nested value of
the caller's input, aliased by the stored record - never changes the
returned record's value.  A shallow copy satisfies none of the last three. -/
def CopyOut (fuel : Nat) (base heap' : Heap) (ret : Addr) : Prop :=
  (∃ ext, heap' = base ++ ext) ∧
  base.length ≤ ret ∧
  freshGraph base.length (fuel + 1) heap' ret = true ∧
  (∀ (b : Addr) (o : HObj) (av : Addr) (v : Value), base.length ≤ b →
    resolve fuel base av = some v → resolve fuel (heap'.set b o) av = some v) ∧
  (∀ (b : Addr) (o : HObj) (v : Value), b < base.length →
    resolve (fuel + 1) heap' ret = some v →
    resolve (fuel + 1) (heap'.set b o) ret = some v)

/-- Lookup of a key in a dict value chain. -/
def Value.dget (k : String) : Value → Option Value
  | .dcons k' v tl => if k' = k then some v else Value.dget k tl
  | _ => none

/-!
Concrete scenarios used by counterexamples and witnesses.
-/

/-- A schema-valid training-job request named nm, with placeholder field
values. -/
def mkTJ (nm : String) : Rec :=
  [("TrainingJobName", .str nm), ("AlgorithmSpecification", .num 0),
   ("EnableNetworkIsolation", .num 0), ("HyperParameters", .num 0),
   ("InputDataConfig", .num 0), ("OutputDataConfig", .num 0),
   ("ResourceConfig", .num 0), ("RoleArn", .num 0),
   ("StoppingCondition", .num 0), ("Tags", .num 0)]

/-- A schema-valid model request named nm. -/
def mkMo (nm : String) : Rec :=
  [("ModelName", .str nm), ("PrimaryContainer", .num 0),
   ("ExecutionRoleArn", .num 0), ("Tags", .num 0),
   ("EnableNetworkIsolation", .num 0)]

/-- A schema-valid endpoint-config request named nm. -/
def mkEPC (nm : String) : Rec :=
  [("EndpointConfigName", .str nm), ("Tags", .num 0), ("ProductionVariants", .num 0)]

/-- A schema-valid endpoint request named nm. -/
def mkEP (nm : String) : Rec :=
  [("EndpointConfigName", .str "cfg"), ("EndpointName", .str nm), ("Tags", .num 0)]

/-- A client holding three training jobs, built by running three creates
from a fresh client. -/
def c2base : SageFakerClient :=
  run (SageFakerClient.make "eu")
    [Op.createTJ (mkTJ "job-a"), Op.createTJ (mkTJ "job-b"), Op.createTJ (mkTJ "job-c")]

/-- The same client after a fourth training job is created (the mutation
performed between the first and second page of an in-progress paginate). -/
def c2after : SageFakerClient :=
  step c2base (Op.createTJ (mkTJ "job-d"))

/-- List states seen by an in-progress page sequence that started on c2base
and saw the fourth create before its second page was requested. -/
def c2states (k : Nat) : List Rec :=
  if k = 0 then c2base.training_jobs else c2after.training_jobs

/-- The heap of the aliasing scenario: address 0 holds the number 1, address
1 the caller's hyper-parameter dict pointing at address 0, address 2 the job
name, addresses 3 to 10 the placeholder values of the remaining fields. -/
def c3heap0 : Heap :=
  [.num 1, .dictO [("lr", 0)], .str "job-1", .num 0, .num 0, .num 0, .num 0,
   .num 0, .num 0, .num 0, .num 0]

/-- The kwargs mapping of the create call: field names paired with the
addresses of the caller's objects (HyperParameters is the dict at
address 1). -/
def c3kw : List (String × Addr) :=
  [("TrainingJobName", 2), ("AlgorithmSpecification", 3),
   ("EnableNetworkIsolation", 4), ("HyperParameters", 1),
   ("InputDataConfig", 5), ("OutputDataConfig", 6), ("ResourceConfig", 7),
   ("RoleArn", 8), ("StoppingCondition", 9), ("Tags", 10)]

/-- Fuel ample for every object of the scenario. -/
def c3fuel : Nat := 8

/-- The heap-level client state before the create call. -/
def c3st0 : HState := ⟨"eu", c3heap0, [], [], [], []⟩

/-- The create call of the scenario. -/
def c3create : Except Err (Addr × HState) :=
  hcreate_training_job c3fuel c3st0 c3kw

/-- The state after the create call. -/
def c3st1 : HState :=
  match c3create with
  | .ok (_, s) => s
  | .error _ => c3st0

/-- The returned record's address together with the state after the create
call. -/
def c3out : Addr × HState :=
  match c3create with
  | .ok o => o
  | .error _ => (0, c3st0)

/-- The state after the caller mutates its own hyper-parameter dict
(hp["lr"] = 2): a fresh cell holding 2 is allocated and the dict cell at
address 1 is updated to point at it.  The stored record aliases that dict. -/
def c3mutated : HState :=
  { c3st1 with
    heap := (c3st1.heap ++ [HObj.num 2]).set 1 (HObj.dictO [("lr", c3st1.heap.length)]) }

/-- The observable value returned by describe_training_job("job-1") against
a given state (the job name object sits at address 2). -/
def c3describe (s : HState) : Option Value :=
  match hdescribe_training_job c3fuel s 2 with
  | .ok (a, h) => resolve c3fuel h a
  | .error _ => none

/-- The deep value of the kwargs mapping of the scenario at create time. -/
def c3kwVal : Value :=
  .dcons "TrainingJobName" (.str "job-1")
    (.dcons "AlgorithmSpecification" (.num 0)
      (.dcons "EnableNetworkIsolation" (.num 0)
        (.dcons "HyperParameters" (.dcons "lr" (.num 1) .dnil)
          (.dcons "InputDataConfig" (.num 0)
            (.dcons "OutputDataConfig" (.num 0)
              (.dcons "ResourceConfig" (.num 0)
                (.dcons "RoleArn" (.num 0)
                  (.dcons "StoppingCondition" (.num 0)
                    (.dcons "Tags" (.num 0) .dnil)))))))))

/-- The heap of the endpoint aliasing scenario: the config name, the
endpoint name and the tags object held by the caller. -/
def c3epHeap : Heap := [.str "cfg", .str "ep-1", .num 0]

/-- The kwargs mapping of the endpoint create call. -/
def c3epKw : List (String × Addr) :=
  [("EndpointConfigName", 0), ("EndpointName", 1), ("Tags", 2)]

/-- The heap-level client state before the endpoint create call. -/
def c3epSt : HState := ⟨"eu", c3epHeap, [], [], [], []⟩

/-- The returned address and state of the endpoint create call. -/
def c3epOut : Addr × HState :=
  match hcreate_endpoint c3fuel c3epSt c3epKw with
  | .ok o => o
  | .error _ => (0, c3epSt)

/-- The endpoint request of the round-trip scenario. -/
def c4kw : Rec := mkEP "ep-1"

/-- The client after creating that endpoint on a fresh client. -/
def c4c1 : SageFakerClient :=
  step (SageFakerClient.make "eu") (Op.createEP c4kw)

/-!
Lemmas about the resource store.
-/

theorem getBy_ok_none_iff (idK : String) (l : List Rec) (name : Value) :
    getBy idK l name = .ok none ↔ idFilter idK name l = [] := by
  unfold getBy
  rcases h : idFilter idK name l with _ | ⟨a, _ | ⟨b, t⟩⟩ <;> simp [h]

theorem getBy_invariant_iff (idK : String) (l : List Rec) (name : Value) :
    getBy idK l name = .error Err.invariantViolation ↔ 2 ≤ countId idK l name := by
  unfold getBy countId
  rcases h : idFilter idK name l with _ | ⟨a, _ | ⟨b, t⟩⟩
  · simp [h]
  · simp [h]
  · simp only [h, List.length_cons]
    constructor
    · intro _; omega
    · intro _; trivial

theorem getBy_error_eq {idK : String} {l : List Rec} {name : Value} {e : Err}
    (h : getBy idK l name = .error e) : e = Err.invariantViolation := by
  unfold getBy at h
  rcases hf : idFilter idK name l with _ | ⟨a, _ | ⟨b, t⟩⟩ <;> rw [hf] at h <;>
    simp at h
  exact h.symm

theorem getBy_ok_of_count_le_one {idK : String} {l : List Rec} {name : Value}
    (h : countId idK l name ≤ 1) : ∃ o, getBy idK l name = .ok o := by
  unfold countId at h
  unfold getBy
  rcases hf : idFilter idK name l with _ | ⟨a, _ | ⟨b, t⟩⟩
  · simp
  · simp
  · rw [hf] at h
    simp only [List.length_cons] at h
    omega

theorem getField_isSome_iff_mem (r : Rec) (k : String) :
    (getField r k).isSome ↔ k ∈ keySet r := by
  unfold getField keySet
  rw [Option.isSome_map', List.find?_isSome]
  simp [List.mem_toFinset, List.mem_map, beq_iff_eq]

theorem getField_eq_none {r : Rec} {k : String} (h : k ∉ keySet r) :
    getField r k = none := by
  rcases hg : getField r k with _ | v
  · rfl
  · exact absurd ((getField_isSome_iff_mem r k).1 (by simp [hg])) h

theorem getField_append_left {r₁ : Rec} (r₂ : Rec) {k : String}
    (h : (getField r₁ k).isSome) : getField (r₁ ++ r₂) k = getField r₁ k := by
  unfold getField at h ⊢
  rcases hf : r₁.find? (fun p => p.1 == k) with _ | p
  · rw [hf] at h; simp at h
  · rw [List.find?_append, hf]; rfl

theorem getField_append_right {r₁ : Rec} (r₂ : Rec) {k : String}
    (h : getField r₁ k = none) : getField (r₁ ++ r₂) k = getField r₂ k := by
  unfold getField at h ⊢
  rcases hf : r₁.find? (fun p => p.1 == k) with _ | p
  · rw [List.find?_append, hf]; rfl
  · rw [hf] at h; simp at h

theorem countId_append (idK : String) (l₁ l₂ : List Rec) (name : Value) :
    countId idK (l₁ ++ l₂) name = countId idK l₁ name + countId idK l₂ name := by
  simp [countId, idFilter, List.filter_append]

theorem countId_singleton (idK : String) (w : Rec) (name : Value) :
    countId idK [w] name = if getField w idK = some name then 1 else 0 := by
  by_cases h : getField w idK = some name <;> simp [countId, idFilter, List.filter, h]

theorem unique_append {idK : String} {l : List Rec} {nm : Value} {w : Rec}
    (hU : Unique idK l) (h0 : countId idK l nm = 0) (hw : getField w idK = some nm) :
    Unique idK (l ++ [w]) := by
  intro name
  rw [countId_append, countId_singleton]
  by_cases h : getField w idK = some name
  · have heq : nm = name := by rw [hw] at h; exact Option.some.inj h
    rw [if_pos h, ← heq, h0]
  · rw [if_neg h]
    simpa using hU name

theorem createIn_ok {exp : Finset String} {idK : String} {l : List Rec} {kw : Rec}
    {out : Rec × List Rec} (h : createIn exp idK l kw = .ok out) :
    out = (kw, l ++ [kw]) ∧ keySet kw = exp ∧
      ∃ nm, getField kw idK = some nm ∧ idFilter idK nm l = [] := by
  unfold createIn at h
  split at h
  case isFalse => simp at h
  case isTrue hks =>
    split at h
    case h_1 => simp at h
    case h_2 nm hg =>
      split at h
      case h_1 => simp at h
      case h_2 => simp at h
      case h_3 hgb =>
        simp only [Except.ok.injEq] at h
        exact ⟨h.symm, hks, nm, hg, (getBy_ok_none_iff idK l nm).1 hgb⟩

theorem createIn_schema (exp : Finset String) (idK : String) (l : List Rec)
    {kw : Rec} (h : keySet kw ≠ exp) :
    createIn exp idK l kw = .error Err.schemaError := by
  unfold createIn; rw [if_neg h]

theorem createIn_ne_schema {exp : Finset String} {idK : String} (l : List Rec)
    {kw : Rec} (hks : keySet kw = exp) (hmem : idK ∈ exp) :
    createIn exp idK l kw ≠ .error Err.schemaError := by
  unfold createIn
  rw [if_pos hks]
  have hs : (getField kw idK).isSome =  true :=
    (getField_isSome_iff_mem kw idK).2 (by rw [hks]; exact hmem)
  rcases hg : getField kw idK with _ | nm
  · rw [hg] at hs; simp at hs
  · simp only [hg]
    rcases hgb : getBy idK l nm with e | (_ | t)
    · have he := getBy_error_eq hgb
      subst he
      simp [hgb]
    · simp [hgb]
    · simp [hgb]

theorem getBy_singleton_match {idK : String} {kw0 : Rec} {nm : Value}
    (h : getField kw0 idK = some nm) : getBy idK [kw0] nm = .ok (some kw0) := by
  simp [getBy, idFilter, List.filter, h]

theorem createIn_dup {exp : Finset String} {idK : String} {l : List Rec} {kw : Rec}
    {nm : Value} {t : Rec} (hks : keySet kw = exp) (hg : getField kw idK = some nm)
    (hgb : getBy idK l nm = .ok (some t)) :
    createIn exp idK l kw = .error Err.duplicateResource := by
  unfold createIn
  rw [if_pos hks]
  simp [hg, hgb]

theorem describeIn_append {idK : String} {l : List Rec} {nm : Value} {w : Rec}
    (hfil : idFilter idK nm l = []) (hw : getField w idK = some nm) :
    describeIn idK (l ++ [w]) nm = .ok w := by
  have hf : idFilter idK nm (l ++ [w]) = [w] := by
    unfold idFilter at hfil ⊢
    rw [List.filter_append, hfil]
    simp [List.filter, hw]
  simp [describeIn, getBy, hf]

/-!
State lemmas: what each operation does to the client state.
-/

theorem step_createTJ (c : SageFakerClient) (kw : Rec) :
    step c (.createTJ kw) = c ∨
      ∃ r l, createIn tjKeys "TrainingJobName" c.training_jobs kw = .ok (r, l) ∧
        step c (.createTJ kw) = { c with training_jobs := l } := by
  unfold step applyOp create_training_job
  rcases h : createIn tjKeys "TrainingJobName" c.training_jobs kw with e | ⟨r, l⟩
  · left; simp [h]
  · right; exact ⟨r, l, rfl, by simp [h]⟩

theorem step_createMo (c : SageFakerClient) (kw : Rec) :
    step c (.createMo kw) = c ∨
      ∃ r l, createIn modelKeys "ModelName" c.models kw = .ok (r, l) ∧
        step c (.createMo kw) = { c with models := l } := by
  unfold step applyOp create_model
  rcases h : createIn modelKeys "ModelName" c.models kw with e | ⟨r, l⟩
  · left; simp [h]
  · right; exact ⟨r, l, rfl, by simp [h]⟩

theorem step_createEPC (c : SageFakerClient) (kw : Rec) :
    step c (.createEPC kw) = c ∨
      ∃ r l, createIn epcKeys "EndpointConfigName" c.endpoint_configs kw = .ok (r, l) ∧
        step c (.createEPC kw) = { c with endpoint_configs := l } := by
  unfold step applyOp create_endpoint_config
  rcases h : createIn epcKeys "EndpointConfigName" c.endpoint_configs kw with e | ⟨r, l⟩
  · left; simp [h]
  · right; exact ⟨r, l, rfl, by simp [h]⟩

theorem create_endpoint_ok {c : SageFakerClient} {kw : Rec} {r : Rec}
    {c' : SageFakerClient} (h : create_endpoint c kw = .ok (r, c')) :
    keySet kw = epKeys ∧
      ∃ nm, getField kw "EndpointName" = some nm ∧
        idFilter "EndpointName" nm c.endpoints = [] ∧
        r = kw ++ [("EndpointArn", .str (mkEndpointArn c.aws_region nm))] ∧
        c' = { c with endpoints := c.endpoints ++ [r] } := by
  unfold create_endpoint at h
  split at h
  case isFalse => simp at h
  case isTrue hks =>
    split at h
    case h_1 => simp at h
    case h_2 nm hg =>
      split at h
      case h_1 => simp at h
      case h_2 => simp at h
      case h_3 hgb =>
        simp only [Except.ok.injEq, Prod.mk.injEq] at h
        refine ⟨hks, nm, hg, (getBy_ok_none_iff _ _ _).1 hgb, h.1.symm, ?_⟩
        rw [← h.2, h.1]

theorem step_createEP (c : SageFakerClient) (kw : Rec) :
    step c (.createEP kw) = c ∨
      ∃ r, create_endpoint c kw = .ok (r, { c with endpoints := c.endpoints ++ [r] }) ∧
        step c (.createEP kw) = { c with endpoints := c.endpoints ++ [r] } := by
  rcases h : create_endpoint c kw with e | ⟨r, c'⟩
  · left; simp [step, applyOp, h]
  · right
    obtain ⟨-, nm, -, -, -, hc'⟩ := create_endpoint_ok h
    refine ⟨r, ?_, ?_⟩
    · rw [hc']
    · simp [step, applyOp, h, hc']

theorem step_describeTJ (c : SageFakerClient) (n : Value) :
    step c (.describeTJ n) = c := by
  unfold step applyOp describe_training_job
  rcases h : describeIn "TrainingJobName" c.training_jobs n with e | r <;> simp [h]

theorem step_describeMo (c : SageFakerClient) (n : Value) :
    step c (.describeMo n) = c := by
  unfold step applyOp describe_model
  rcases h : describeIn "ModelName" c.models n with e | r <;> simp [h]

theorem step_describeEPC (c : SageFakerClient) (n : Value) :
    step c (.describeEPC n) = c := by
  unfold step applyOp describe_endpoint_config
  rcases h : describeIn "EndpointConfigName" c.endpoint_configs n with e | r <;> simp [h]

theorem step_describeEP (c : SageFakerClient) (n : Value) :
    step c (.describeEP n) = c := by
  unfold step applyOp describe_endpoint
  rcases h : describeIn "EndpointName" c.endpoints n with e | r <;> simp [h]

theorem step_listOp (c : SageFakerClient) (name : String) :
    step c (.listOp name) = c := by
  simp only [step, applyOp]
  unfold get_paginator
  split_ifs <;> simp

theorem step_waitOp (c : SageFakerClient) (wname : String) (kw : Rec) :
    step c (.waitOp wname kw) = c := by
  unfold step applyOp client_wait
  rcases h : get_waiter c wname with e | ⟨w, c2⟩
  · simp [h]
  · rcases hw : w.wait kw with e | u <;> simp [h, hw]

theorem unique_createIn {exp : Finset String} {idK : String} {l : List Rec}
    {kw : Rec} {out : Rec × List Rec} (hU : Unique idK l)
    (h : createIn exp idK l kw = .ok out) : Unique idK out.2 := by
  obtain ⟨hout, -, nm, hg, hfil⟩ := createIn_ok h
  rw [hout]
  exact unique_append hU (by simp [countId, hfil]) hg

theorem inv_step {c : SageFakerClient} (hI : Inv c) (op : Op) : Inv (step c op) := by
  obtain ⟨h1, h2, h3, h4⟩ := hI
  cases op with
  | createTJ kw =>
    rcases step_createTJ c kw with h | ⟨r, l, hok, hst⟩
    · rw [h]; exact ⟨h1, h2, h3, h4⟩
    · rw [hst]
      exact ⟨unique_createIn h1 hok, h2, h3, h4⟩
  | createMo kw =>
    rcases step_createMo c kw with h | ⟨r, l, hok, hst⟩
    · rw [h]; exact ⟨h1, h2, h3, h4⟩
    · rw [hst]
      exact ⟨h1, unique_createIn h2 hok, h3, h4⟩
  | createEPC kw =>
    rcases step_createEPC c kw with h | ⟨r, l, hok, hst⟩
    · rw [h]; exact ⟨h1, h2, h3, h4⟩
    · rw [hst]
      exact ⟨h1, h2, unique_createIn h3 hok, h4⟩
  | createEP kw =>
    rcases step_createEP c kw with h | ⟨r, hok, hst⟩
    · rw [h]; exact ⟨h1, h2, h3, h4⟩
    · rw [hst]
      obtain ⟨-, nm, hg, hfil, hr, -⟩ := create_endpoint_ok hok
      have hw : getField r "EndpointName" = some nm := by
        rw [hr, getField_append_left _ (by simp [hg])]
        exact hg
      exact ⟨h1, h2, h3, unique_append h4 (by simp [countId, hfil]) hw⟩
  | describeTJ n => rw [step_describeTJ]; exact ⟨h1, h2, h3, h4⟩
  | describeMo n => rw [step_describeMo]; exact ⟨h1, h2, h3, h4⟩
  | describeEPC n => rw [step_describeEPC]; exact ⟨h1, h2, h3, h4⟩
  | describeEP n => rw [step_describeEP]; exact ⟨h1, h2, h3, h4⟩
  | listOp name => rw [step_listOp]; exact ⟨h1, h2, h3, h4⟩
  | waitOp wname kw => rw [step_waitOp]; exact ⟨h1, h2, h3, h4⟩

theorem inv_run {c : SageFakerClient} (hI : Inv c) (ops : List Op) :
    Inv (run c ops) := by
  induction ops generalizing c with
  | nil => simpa [run] using hI
  | cons op ops ih =>
    have : run c (op :: ops) = run (step c op) ops := by simp [run, List.foldl]
    rw [this]
    exact ih (inv_step hI op)

theorem inv_make (region : String) : Inv (SageFakerClient.make region) := by
  refine ⟨?_, ?_, ?_, ?_⟩ <;> intro name <;>
    simp [SageFakerClient.make, countId, idFilter]

/-- Claim C1: for every resource type, starting from a freshly constructed
client, after any sequence of create/describe/list/wait operations each
collection contains at most one record per identity value; the lookup helper
fails with an InvariantViolation exactly when more than one record shares the
identity value, and on every reachable state the helpers return without that
error (the branch is unreachable under create's duplicate check). -/
theorem claim1 (region : String) (ops : List Op) (c : SageFakerClient)
    (hc : c = run (SageFakerClient.make region) ops) :
    Inv c ∧
      (∀ name : Value,
        (∃ o, get_training_job c name = .ok o) ∧ (∃ o, get_model c name = .ok o) ∧
        (∃ o, get_endpoint_config c name = .ok o) ∧ (∃ o, get_endpoint c name = .ok o)) ∧
      (∀ (idK : String) (l : List Rec) (name : Value),
        2 ≤ countId idK l name → getBy idK l name = .error Err.invariantViolation) := by
  subst hc
  have hI := inv_run (inv_make region) ops
  obtain ⟨u1, u2, u3, u4⟩ := hI
  refine ⟨⟨u1, u2, u3, u4⟩, ?_, ?_⟩
  · intro name
    exact ⟨getBy_ok_of_count_le_one (u1 name), getBy_ok_of_count_le_one (u2 name),
      getBy_ok_of_count_le_one (u3 name), getBy_ok_of_count_le_one (u4 name)⟩
  · intro idK l name h
    exact (getBy_invariant_iff idK l name).2 h

/-- Witness for C1: a concrete run, and the invariant-violation branch hit
on a concrete corrupted collection with two records of the same name. -/
theorem claim1_witness :
    Inv (run (SageFakerClient.make "eu") [Op.createTJ (mkTJ "job-a")]) ∧
      getBy "TrainingJobName" [mkTJ "job-a", mkTJ "job-a"] (.str "job-a") =
        .error Err.invariantViolation :=
  ⟨(claim1 "eu" [Op.createTJ (mkTJ "job-a")] _ rfl).1,
   (claim1 "eu" [] _ rfl).2.2 "TrainingJobName" [mkTJ "job-a", mkTJ "job-a"]
     (.str "job-a") (by decide)⟩

/-!
Round-trip lemmas and claims C4, C5, C6, C10.
-/

theorem create_training_job_ok {c : SageFakerClient} {kw r : Rec}
    {c' : SageFakerClient} (h : create_training_job c kw = .ok (r, c')) :
    r = kw ∧ c' = { c with training_jobs := c.training_jobs ++ [kw] } ∧
      ∃ nm, getField kw "TrainingJobName" = some nm ∧
        idFilter "TrainingJobName" nm c.training_jobs = [] := by
  unfold create_training_job at h
  rcases hc : createIn tjKeys "TrainingJobName" c.training_jobs kw with e | ⟨r0, l⟩ <;>
    rw [hc] at h
  · simp at h
  · obtain ⟨hout, -, nm, hg, hfil⟩ := createIn_ok hc
    simp only [Except.ok.injEq, Prod.mk.injEq] at h
    obtain ⟨hr, hc'⟩ := h
    obtain ⟨h1, h2⟩ := Prod.mk.injEq .. ▸ hout
    exact ⟨hr ▸ h1.symm ▸ rfl, by rw [← hc', h2], nm, hg, hfil⟩

theorem create_model_ok {c : SageFakerClient} {kw r : Rec}
    {c' : SageFakerClient} (h : create_model c kw = .ok (r, c')) :
    r = kw ∧ c' = { c with models := c.models ++ [kw] } ∧
      ∃ nm, getField kw "ModelName" = some nm ∧
        idFilter "ModelName" nm c.models = [] := by
  unfold create_model at h
  rcases hc : createIn modelKeys "ModelName" c.models kw with e | ⟨r0, l⟩ <;>
    rw [hc] at h
  · simp at h
  · obtain ⟨hout, -, nm, hg, hfil⟩ := createIn_ok hc
    simp only [Except.ok.injEq, Prod.mk.injEq] at h
    obtain ⟨hr, hc'⟩ := h
    obtain ⟨h1, h2⟩ := Prod.mk.injEq .. ▸ hout
    exact ⟨hr ▸ h1.symm ▸ rfl, by rw [← hc', h2], nm, hg, hfil⟩

theorem create_endpoint_config_ok {c : SageFakerClient} {kw r : Rec}
    {c' : SageFakerClient} (h : create_endpoint_config c kw = .ok (r, c')) :
    r = kw ∧ c' = { c with endpoint_configs := c.endpoint_configs ++ [kw] } ∧
      ∃ nm, getField kw "EndpointConfigName" = some nm ∧
        idFilter "EndpointConfigName" nm c.endpoint_configs = [] := by
  unfold create_endpoint_config at h
  rcases hc : createIn epcKeys "EndpointConfigName" c.endpoint_configs kw with e | ⟨r0, l⟩ <;>
    rw [hc] at h
  · simp at h
  · obtain ⟨hout, -, nm, hg, hfil⟩ := createIn_ok hc
    simp only [Except.ok.injEq, Prod.mk.injEq] at h
    obtain ⟨hr, hc'⟩ := h
    obtain ⟨h1, h2⟩ := Prod.mk.injEq .. ▸ hout
    exact ⟨hr ▸ h1.symm ▸ rfl, by rw [← hc', h2], nm, hg, hfil⟩

/-- Claim C4 as stated is refuted by endpoints: describe_endpoint returns the
stored record, which is the input plus the derived EndpointArn field, not a
value field-for-field equal to the input. -/
theorem claim4_counterexample :
    (create_endpoint (SageFakerClient.make "eu") c4kw).isOk = true ∧
      describe_endpoint c4c1 (.str "ep-1") =
        .ok (c4kw ++ [("EndpointArn", .str "arn:aws:sagemaker:eu:12345:endpoint/ep-1")],
             c4c1) ∧
      c4kw ++ [("EndpointArn", .str "arn:aws:sagemaker:eu:12345:endpoint/ep-1")] ≠ c4kw := by
  decide

/-- Claim C4, amended: for training jobs, models and endpoint configs,
describe after a successful create returns exactly the created record; for
endpoints it returns the created record with the derived EndpointArn field
appended by the store. -/
theorem claim4_amended :
    (∀ (c : SageFakerClient) (kw r : Rec) (c' : SageFakerClient) (nm : Value),
        create_training_job c kw = .ok (r, c') →
        getField kw "TrainingJobName" = some nm →
        describe_training_job c' nm = .ok (kw, c')) ∧
    (∀ (c : SageFakerClient) (kw r : Rec) (c' : SageFakerClient) (nm : Value),
        create_model c kw = .ok (r, c') →
        getField kw "ModelName" = some nm →
        describe_model c' nm = .ok (kw, c')) ∧
    (∀ (c : SageFakerClient) (kw r : Rec) (c' : SageFakerClient) (nm : Value),
        create_endpoint_config c kw = .ok (r, c') →
        getField kw "EndpointConfigName" = some nm →
        describe_endpoint_config c' nm = .ok (kw, c')) ∧
    (∀ (c : SageFakerClient) (kw r : Rec) (c' : SageFakerClient) (nm : Value),
        create_endpoint c kw = .ok (r, c') →
        getField kw "EndpointName" = some nm →
        describe_endpoint c' nm =
          .ok (kw ++ [("EndpointArn", .str (mkEndpointArn c.aws_region nm))], c')) := by
  refine ⟨?_, ?_, ?_, ?_⟩
  · intro c kw r c' nm h hg
    obtain ⟨-, hc', nm0, hg0, hfil⟩ := create_training_job_ok h
    have hnm : nm0 = nm := Option.some.inj (hg0 ▸ hg)
    subst hnm
    have hd := describeIn_append hfil hg0
    rw [describe_training_job, hc']
    simp [hd]
  · intro c kw r c' nm h hg
    obtain ⟨-, hc', nm0, hg0, hfil⟩ := create_model_ok h
    have hnm : nm0 = nm := Option.some.inj (hg0 ▸ hg)
    subst hnm
    have hd := describeIn_append hfil hg0
    rw [describe_model, hc']
    simp [hd]
  · intro c kw r c' nm h hg
    obtain ⟨-, hc', nm0, hg0, hfil⟩ := create_endpoint_config_ok h
    have hnm : nm0 = nm := Option.some.inj (hg0 ▸ hg)
    subst hnm
    have hd := describeIn_append hfil hg0
    rw [describe_endpoint_config, hc']
    simp [hd]
  · intro c kw r c' nm h hg
    obtain ⟨-, nm0, hg0, hfil, hr, hc'⟩ := create_endpoint_ok h
    have hnm : nm0 = nm := Option.some.inj (hg0 ▸ hg)
    subst hnm
    have hw : getField r "EndpointName" = some nm0 := by
      rw [hr, getField_append_left _ (by simp [hg0])]
      exact hg0
    have hd := describeIn_append hfil hw
    rw [describe_endpoint, hc']
    simp only [hd]
    rw [hr]

/-- Witness for the amended C4: the round trip evaluated on a concrete
training job and a concrete endpoint. -/
theorem claim4_witness :
    describe_training_job ⟨"eu", [mkTJ "job-a"], [], [], []⟩ (.str "job-a") =
      .ok (mkTJ "job-a", ⟨"eu", [mkTJ "job-a"], [], [], []⟩) ∧
    describe_endpoint c4c1 (.str "ep-1") =
      .ok (c4kw ++ [("EndpointArn", .str (mkEndpointArn "eu" (.str "ep-1")))], c4c1) :=
  ⟨claim4_amended.1 (SageFakerClient.make "eu") (mkTJ "job-a") (mkTJ "job-a")
      ⟨"eu", [mkTJ "job-a"], [], [], []⟩ (.str "job-a") (by decide) (by decide),
   claim4_amended.2.2.2 (SageFakerClient.make "eu") c4kw
      (c4kw ++ [("EndpointArn", .str (mkEndpointArn "eu" (.str "ep-1")))]) c4c1
      (.str "ep-1") (by decide) (by decide)⟩

/-- Claim C5: for every resource type, a second create whose record carries
the identity value of the record already stored (the collection holding
exactly that one record) fails with the duplicate error and leaves the
collection unchanged, so its size remains 1. -/
theorem claim5 (c : SageFakerClient) (kw0 kw : Rec) (nm : Value) :
    (c.training_jobs = [kw0] → keySet kw = tjKeys →
      getField kw0 "TrainingJobName" = some nm →
      getField kw "TrainingJobName" = some nm →
      create_training_job c kw = .error Err.duplicateResource ∧
        step c (.createTJ kw) = c) ∧
    (c.models = [kw0] → keySet kw = modelKeys →
      getField kw0 "ModelName" = some nm → getField kw "ModelName" = some nm →
      create_model c kw = .error Err.duplicateResource ∧ step c (.createMo kw) = c) ∧
    (c.endpoint_configs = [kw0] → keySet kw = epcKeys →
      getField kw0 "EndpointConfigName" = some nm →
      getField kw "EndpointConfigName" = some nm →
      create_endpoint_config c kw = .error Err.duplicateResource ∧
        step c (.createEPC kw) = c) ∧
    (c.endpoints = [kw0] → keySet kw = epKeys →
      getField kw0 "EndpointName" = some nm → getField kw "EndpointName" = some nm →
      create_endpoint c kw = .error Err.duplicateResource ∧
        step c (.createEP kw) = c) := by
  refine ⟨?_, ?_, ?_, ?_⟩
  · intro hcoll hks hg0 hg
    have hd : createIn tjKeys "TrainingJobName" c.training_jobs kw =
        .error Err.duplicateResource := by
      rw [hcoll]; exact createIn_dup hks hg (getBy_singleton_match hg0)
    exact ⟨by simp [create_training_job, hd],
      by simp [step, applyOp, create_training_job, hd]⟩
  · intro hcoll hks hg0 hg
    have hd : createIn modelKeys "ModelName" c.models kw =
        .error Err.duplicateResource := by
      rw [hcoll]; exact createIn_dup hks hg (getBy_singleton_match hg0)
    exact ⟨by simp [create_model, hd], by simp [step, applyOp, create_model, hd]⟩
  · intro hcoll hks hg0 hg
    have hd : createIn epcKeys "EndpointConfigName" c.endpoint_configs kw =
        .error Err.duplicateResource := by
      rw [hcoll]; exact createIn_dup hks hg (getBy_singleton_match hg0)
    exact ⟨by simp [create_endpoint_config, hd],
      by simp [step, applyOp, create_endpoint_config, hd]⟩
  · intro hcoll hks hg0 hg
    have hd : create_endpoint c kw = .error Err.duplicateResource := by
      unfold create_endpoint
      rw [if_pos hks, hcoll]
      simp [hg, getBy_singleton_match hg0]
    exact ⟨hd, by simp [step, applyOp, hd]⟩

/-- Witness for C5: a duplicate training-job create on a concrete client
holding exactly one job. -/
theorem claim5_witness :
    create_training_job (run (SageFakerClient.make "eu") [Op.createTJ (mkTJ "job-a")])
        (mkTJ "job-a") = .error Err.duplicateResource ∧
      step (run (SageFakerClient.make "eu") [Op.createTJ (mkTJ "job-a")])
        (.createTJ (mkTJ "job-a")) =
        run (SageFakerClient.make "eu") [Op.createTJ (mkTJ "job-a")] :=
  (claim5 (run (SageFakerClient.make "eu") [Op.createTJ (mkTJ "job-a")])
    (mkTJ "job-a") (mkTJ "job-a") (.str "job-a")).1 (by decide) (by decide)
    (by decide) (by decide)

theorem create_endpoint_ne_schema {c : SageFakerClient} {kw : Rec}
    (hks : keySet kw = epKeys) :
    create_endpoint c kw ≠ .error Err.schemaError := by
  unfold create_endpoint
  rw [if_pos hks]
  have hs : (getField kw "EndpointName").isSome = true :=
    (getField_isSome_iff_mem kw "EndpointName").2 (by rw [hks]; decide)
  rcases hg : getField kw "EndpointName" with _ | nm
  · rw [hg] at hs; simp at hs
  · simp only [hg]
    rcases hgb : getBy "EndpointName" c.endpoints nm with e | (_ | t)
    · have he := getBy_error_eq hgb
      subst he
      simp [hgb]
    · simp [hgb]
    · simp [hgb]

/-- Claim C6: for every resource type, create fails with the schema error
exactly when the supplied field set differs from the required set (missing
or extra fields alike, a set comparison), and such a failure leaves the
client unchanged. -/
theorem claim6 (c : SageFakerClient) (kw : Rec) :
    ((keySet kw ≠ tjKeys →
        create_training_job c kw = .error Err.schemaError ∧ step c (.createTJ kw) = c) ∧
      (keySet kw = tjKeys → create_training_job c kw ≠ .error Err.schemaError)) ∧
    ((keySet kw ≠ modelKeys →
        create_model c kw = .error Err.schemaError ∧ step c (.createMo kw) = c) ∧
      (keySet kw = modelKeys → create_model c kw ≠ .error Err.schemaError)) ∧
    ((keySet kw ≠ epcKeys →
        create_endpoint_config c kw = .error Err.schemaError ∧
          step c (.createEPC kw) = c) ∧
      (keySet kw = epcKeys → create_endpoint_config c kw ≠ .error Err.schemaError)) ∧
    ((keySet kw ≠ epKeys →
        create_endpoint c kw = .error Err.schemaError ∧ step c (.createEP kw) = c) ∧
      (keySet kw = epKeys → create_endpoint c kw ≠ .error Err.schemaError)) := by
  refine ⟨⟨?_, ?_⟩, ⟨?_, ?_⟩, ⟨?_, ?_⟩, ⟨?_, ?_⟩⟩
  · intro h
    have hs := createIn_schema tjKeys "TrainingJobName" c.training_jobs h
    exact ⟨by simp [create_training_job, hs],
      by simp [step, applyOp, create_training_job, hs]⟩
  · intro hks hcontra
    rcases hc : createIn tjKeys "TrainingJobName" c.training_jobs kw with e | rl
    · rw [create_training_job, hc] at hcontra
      simp only [Except.error.injEq] at hcontra
      exact createIn_ne_schema c.training_jobs hks (by decide) (hcontra ▸ hc)
    · rw [create_training_job, hc] at hcontra
      simp at hcontra
  · intro h
    have hs := createIn_schema modelKeys "ModelName" c.models h
    exact ⟨by simp [create_model, hs], by simp [step, applyOp, create_model, hs]⟩
  · intro hks hcontra
    rcases hc : createIn modelKeys "ModelName" c.models kw with e | rl
    · rw [create_model, hc] at hcontra
      simp only [Except.error.injEq] at hcontra
      exact createIn_ne_schema c.models hks (by decide) (hcontra ▸ hc)
    · rw [create_model, hc] at hcontra
      simp at hcontra
  · intro h
    have hs := createIn_schema epcKeys "EndpointConfigName" c.endpoint_configs h
    exact ⟨by simp [create_endpoint_config, hs],
      by simp [step, applyOp, create_endpoint_config, hs]⟩
  · intro hks hcontra
    rcases hc : createIn epcKeys "EndpointConfigName" c.endpoint_configs kw with e | rl
    · rw [create_endpoint_config, hc] at hcontra
      simp only [Except.error.injEq] at hcontra
      exact createIn_ne_schema c.endpoint_configs hks (by decide) (hcontra ▸ hc)
    · rw [create_endpoint_config, hc] at hcontra
      simp at hcontra
  · intro h
    have hs : create_endpoint c kw = .error Err.schemaError := by
      unfold create_endpoint
      rw [if_neg h]
    exact ⟨hs, by simp [step, applyOp, hs]⟩
  · intro hks
    exact create_endpoint_ne_schema hks

/-- Witness for C6: a concrete create with an empty field set fails with the
schema error and leaves the client unchanged; a concrete schema-conforming
create does not fail with the schema error. -/
theorem claim6_witness :
    (create_training_job (SageFakerClient.make "eu") [] = .error Err.schemaError ∧
      step (SageFakerClient.make "eu") (.createTJ []) = SageFakerClient.make "eu") ∧
    create_training_job (SageFakerClient.make "eu") (mkTJ "job-a") ≠
      .error Err.schemaError :=
  ⟨(claim6 (SageFakerClient.make "eu") []).1.1 (by decide),
   (claim6 (SageFakerClient.make "eu") (mkTJ "job-a")).1.2 (by decide)⟩

/-- Claim C10: a successful create appends exactly one record to its own
collection and leaves the other three collections unchanged; describe, list
and wait operations leave the client state unchanged. -/
theorem claim10 :
    (∀ (c : SageFakerClient) (kw r : Rec) (c' : SageFakerClient),
        create_training_job c kw = .ok (r, c') →
          c'.training_jobs = c.training_jobs ++ [kw] ∧ c'.models = c.models ∧
          c'.endpoint_configs = c.endpoint_configs ∧ c'.endpoints = c.endpoints) ∧
    (∀ (c : SageFakerClient) (kw r : Rec) (c' : SageFakerClient),
        create_model c kw = .ok (r, c') →
          c'.models = c.models ++ [kw] ∧ c'.training_jobs = c.training_jobs ∧
          c'.endpoint_configs = c.endpoint_configs ∧ c'.endpoints = c.endpoints) ∧
    (∀ (c : SageFakerClient) (kw r : Rec) (c' : SageFakerClient),
        create_endpoint_config c kw = .ok (r, c') →
          c'.endpoint_configs = c.endpoint_configs ++ [kw] ∧
          c'.training_jobs = c.training_jobs ∧ c'.models = c.models ∧
          c'.endpoints = c.endpoints) ∧
    (∀ (c : SageFakerClient) (kw r : Rec) (c' : SageFakerClient),
        create_endpoint c kw = .ok (r, c') →
          c'.endpoints = c.endpoints ++ [r] ∧ c'.training_jobs = c.training_jobs ∧
          c'.models = c.models ∧ c'.endpoint_configs = c.endpoint_configs) ∧
    (∀ (c : SageFakerClient) (n : Value) (r : Rec) (c' : SageFakerClient),
        describe_training_job c n = .ok (r, c') → c' = c) ∧
    (∀ (c : SageFakerClient) (n : Value) (r : Rec) (c' : SageFakerClient),
        describe_model c n = .ok (r, c') → c' = c) ∧
    (∀ (c : SageFakerClient) (n : Value) (r : Rec) (c' : SageFakerClient),
        describe_endpoint_config c n = .ok (r, c') → c' = c) ∧
    (∀ (c : SageFakerClient) (n : Value) (r : Rec) (c' : SageFakerClient),
        describe_endpoint c n = .ok (r, c') → c' = c) ∧
    (∀ (c : SageFakerClient) (name : String) (p : Paginator) (c' : SageFakerClient),
        get_paginator c name = .ok (p, c') → c' = c) ∧
    (∀ (c : SageFakerClient) (wname : String) (kw : Rec) (u : Unit)
        (c' : SageFakerClient), client_wait c wname kw = .ok (u, c') → c' = c) := by
  refine ⟨?_, ?_, ?_, ?_, ?_, ?_, ?_, ?_, ?_, ?_⟩
  · intro c kw r c' h
    obtain ⟨-, hc', -⟩ := create_training_job_ok h
    rw [hc']
    exact ⟨rfl, rfl, rfl, rfl⟩
  · intro c kw r c' h
    obtain ⟨-, hc', -⟩ := create_model_ok h
    rw [hc']
    exact ⟨rfl, rfl, rfl, rfl⟩
  · intro c kw r c' h
    obtain ⟨-, hc', -⟩ := create_endpoint_config_ok h
    rw [hc']
    exact ⟨rfl, rfl, rfl, rfl⟩
  · intro c kw r c' h
    obtain ⟨-, -, -, -, -, hc'⟩ := create_endpoint_ok h
    rw [hc']
    exact ⟨rfl, rfl, rfl, rfl⟩
  · intro c n r c' h
    unfold describe_training_job at h
    rcases hd : describeIn "TrainingJobName" c.training_jobs n with e | r0 <;>
      rw [hd] at h <;> simp at h
    exact h.2.symm
  · intro c n r c' h
    unfold describe_model at h
    rcases hd : describeIn "ModelName" c.models n with e | r0 <;>
      rw [hd] at h <;> simp at h
    exact h.2.symm
  · intro c n r c' h
    unfold describe_endpoint_config at h
    rcases hd : describeIn "EndpointConfigName" c.endpoint_configs n with e | r0 <;>
      rw [hd] at h <;> simp at h
    exact h.2.symm
  · intro c n r c' h
    unfold describe_endpoint at h
    rcases hd : describeIn "EndpointName" c.endpoints n with e | r0 <;>
      rw [hd] at h <;> simp at h
    exact h.2.symm
  · intro c name p c' h
    unfold get_paginator at h
    split_ifs at h <;> simp at h <;> exact h.2.symm
  · intro c wname kw u c' h
    unfold client_wait at h
    rcases hgw : get_waiter c wname with e | ⟨w, c2⟩ <;> rw [hgw] at h
    · simp at h
    · dsimp only at h
      rcases hw : w.wait kw with e | u2 <;> rw [hw] at h <;> simp at h
      exact h.symm

/-- Witness for C10: the frame conditions on a concrete create and a
concrete describe. -/
theorem claim10_witness :
    (c2after.training_jobs = c2base.training_jobs ++ [mkTJ "job-d"] ∧
      c2after.models = c2base.models ∧
      c2after.endpoint_configs = c2base.endpoint_configs ∧
      c2after.endpoints = c2base.endpoints) ∧
    c2base = c2base :=
  ⟨claim10.1 c2base (mkTJ "job-d") (mkTJ "job-d") c2after (by decide),
   claim10.2.2.2.2.1 c2base (.str "job-a") (mkTJ "job-a") c2base (by decide)⟩

/-!
Claims C8 (waiter) and C9 (endpoint resource identifier).
-/

/-- Claim C8: wait fails with the argument error whenever the keyword-name
set differs from {selector keyword, WaiterConfig}, regardless of the
selector's outcome; with the exact set it performs the single lookup with
the selector value, failing with the timeout-or-not-found error on the
not-found sentinel, succeeding with no return value on a hit, and
propagating a lookup failure.  The client's sole waiter pairs the
TrainingJobName keyword with _get_training_job. -/
theorem claim8 (w : Waiter) (kw : Rec) :
    (keySet kw ≠ {w.selector_name, "WaiterConfig"} →
      w.wait kw = .error Err.argumentError) ∧
    (keySet kw = {w.selector_name, "WaiterConfig"} →
      ∃ v, getField kw w.selector_name = some v ∧
        (w.selector v = .ok none → w.wait kw = .error Err.timeoutOrNotFound) ∧
        (∀ r, w.selector v = .ok (some r) → w.wait kw = .ok ()) ∧
        (∀ e, w.selector v = .error e → w.wait kw = .error e)) ∧
    (∀ c : SageFakerClient,
      get_waiter c "training_job_completed_or_stopped" =
        .ok (⟨"TrainingJobName", get_training_job c⟩, c)) := by
  refine ⟨?_, ?_, ?_⟩
  · intro h
    unfold Waiter.wait
    rw [if_neg h]
  · intro hks
    have hs : (getField kw w.selector_name).isSome = true :=
      (getField_isSome_iff_mem kw w.selector_name).2
        (by rw [hks]; exact Finset.mem_insert_self _ _)
    rcases hg : getField kw w.selector_name with _ | v
    · rw [hg] at hs; simp at hs
    · refine ⟨v, rfl, ?_, ?_, ?_⟩
      · intro h'
        unfold Waiter.wait
        rw [if_pos hks]
        simp [hg, h']
      · intro r h'
        unfold Waiter.wait
        rw [if_pos hks]
        simp [hg, h']
      · intro e h'
        unfold Waiter.wait
        rw [if_pos hks]
        simp [hg, h']
  · intro c
    unfold get_waiter
    rw [if_pos rfl]

/-- Witness for C8: the three outcomes on a concrete waiter over a client
holding jobs named job-a, job-b, job-c. -/
theorem claim8_witness :
    Waiter.wait ⟨"TrainingJobName", get_training_job c2base⟩ [] =
      .error Err.argumentError ∧
    Waiter.wait ⟨"TrainingJobName", get_training_job c2base⟩
      [("TrainingJobName", .str "job-a"), ("WaiterConfig", .num 0)] = .ok () ∧
    Waiter.wait ⟨"TrainingJobName", get_training_job c2base⟩
      [("TrainingJobName", .str "nope"), ("WaiterConfig", .num 0)] =
      .error Err.timeoutOrNotFound := by
  refine ⟨(claim8 ⟨"TrainingJobName", get_training_job c2base⟩ []).1 (by decide), ?_, ?_⟩
  · obtain ⟨v, hv, h1, h2, h3⟩ :=
      (claim8 ⟨"TrainingJobName", get_training_job c2base⟩
        [("TrainingJobName", .str "job-a"), ("WaiterConfig", .num 0)]).2.1 (by decide)
    have hv' : v = Value.str "job-a" :=
      Option.some.inj (hv.symm.trans (by decide))
    subst hv'
    exact h2 (mkTJ "job-a") (by decide)
  · obtain ⟨v, hv, h1, h2, h3⟩ :=
      (claim8 ⟨"TrainingJobName", get_training_job c2base⟩
        [("TrainingJobName", .str "nope"), ("WaiterConfig", .num 0)]).2.1 (by decide)
    have hv' : v = Value.str "nope" :=
      Option.some.inj (hv.symm.trans (by decide))
    subst hv'
    exact h1 (by decide)

/-- Claim C9: a successful endpoint creation stores and returns the record
with the derived EndpointArn field appended, equal to the string
arn:aws:sagemaker: followed by the construction-time region, :12345:endpoint/
and the supplied endpoint name; supplying EndpointArn as an input field makes
create_endpoint fail with the schema error. -/
theorem claim9 :
    (∀ (c : SageFakerClient) (kw r : Rec) (c' : SageFakerClient) (nm : String),
        getField kw "EndpointName" = some (.str nm) →
        create_endpoint c kw = .ok (r, c') →
        r = kw ++ [("EndpointArn",
            .str ("arn:aws:sagemaker:" ++ c.aws_region ++ ":12345:endpoint/" ++ nm))] ∧
        c'.endpoints = c.endpoints ++ [r] ∧
        getField r "EndpointArn" =
          some (.str ("arn:aws:sagemaker:" ++ c.aws_region ++ ":12345:endpoint/" ++ nm))) ∧
    (∀ (c : SageFakerClient) (kw : Rec), "EndpointArn" ∈ keySet kw →
        create_endpoint c kw = .error Err.schemaError) := by
  constructor
  · intro c kw r c' nm hg h
    obtain ⟨hks, nm0, hg0, -, hr, hc'⟩ := create_endpoint_ok h
    have hnm : nm0 = Value.str nm := Option.some.inj (hg0.symm.trans hg)
    subst hnm
    have harn : mkEndpointArn c.aws_region (Value.str nm) =
        "arn:aws:sagemaker:" ++ c.aws_region ++ ":12345:endpoint/" ++ nm := by
      simp [mkEndpointArn, Value.pyStr]
    have hnone : getField kw "EndpointArn" = none :=
      getField_eq_none (fun hmem => by
        rw [hks] at hmem
        exact absurd hmem (by decide))
    refine ⟨by rw [hr, harn], by rw [hc'], ?_⟩
    rw [hr, harn, getField_append_right _ hnone]
    simp [getField, List.find?]
  · intro c kw hmem
    have hne : keySet kw ≠ epKeys := fun hcontra =>
      absurd (hcontra ▸ hmem) (by decide)
    unfold create_endpoint
    rw [if_neg hne]

/-- Witness for C9: the derived identifier on a concrete endpoint creation,
and rejection of a caller-supplied EndpointArn. -/
theorem claim9_witness :
    getField (c4kw ++ [("EndpointArn", .str "arn:aws:sagemaker:eu:12345:endpoint/ep-1")])
        "EndpointArn" = some (.str "arn:aws:sagemaker:eu:12345:endpoint/ep-1") ∧
    create_endpoint (SageFakerClient.make "eu") (("EndpointArn", Value.num 0) :: c4kw) =
      .error Err.schemaError :=
  ⟨(claim9.1 (SageFakerClient.make "eu") c4kw
      (c4kw ++ [("EndpointArn", .str "arn:aws:sagemaker:eu:12345:endpoint/ep-1")])
      c4c1 "ep-1" (by decide) (by decide)).2.2,
   claim9.2 (SageFakerClient.make "eu") (("EndpointArn", Value.num 0) :: c4kw) (by decide)⟩

/-!
Pagination lemmas and claims C7 and C2.
-/

theorem pyRange_zero (pp : Nat) : pyRange 0 0 pp = [] := by
  by_cases h : pp = 0
  · simp [pyRange, h]
  · have hd : (pp - 1) / pp = 0 := Nat.div_eq_of_lt (by omega)
    simp [pyRange, h, hd]

theorem pyRange_cons {pp n : Nat} (hpp : 0 < pp) (hn : 0 < n) :
    pyRange 0 n pp = 0 :: (pyRange 0 (n - pp) pp).map (fun i => i + pp) := by
  have hpp' : pp ≠ 0 := by omega
  unfold pyRange
  rw [if_neg hpp', if_neg hpp']
  have h1 : (n - 0 + pp - 1) / pp = (n - 1) / pp + 1 := by
    have he : n - 0 + pp - 1 = (n - 1) + pp := by omega
    rw [he, Nat.add_div_right _ hpp]
  have h2 : (n - pp - 0 + pp - 1) / pp = (n - 1) / pp := by
    rcases le_or_lt pp n with h | h
    · have he : n - pp - 0 + pp - 1 = n - 1 := by omega
      rw [he]
    · have e1 : n - pp - 0 + pp - 1 = pp - 1 := by omega
      rw [e1, Nat.div_eq_of_lt (by omega), Nat.div_eq_of_lt (by omega)]
  rw [h1, h2, List.range_succ_eq_map]
  simp only [List.map_cons, List.map_map]
  congr 1
  · simp
  · apply List.map_congr_left
    intro a _
    simp only [Function.comp, Nat.zero_add, Nat.succ_mul]

theorem paginate_nil (t : String) (pp : Nat) :
    Paginator.paginate ⟨t, [], pp⟩ = [] := by
  unfold Paginator.paginate
  simp [pyRange_zero]

theorem paginate_cons {pp : Nat} (hpp : 0 < pp) (t : String) {items : List Rec}
    (hne : items ≠ []) :
    Paginator.paginate ⟨t, items, pp⟩ =
      [(t, items.take pp)] :: Paginator.paginate ⟨t, items.drop pp, pp⟩ := by
  unfold Paginator.paginate
  dsimp only
  have hn : 0 < items.length := List.length_pos.2 hne
  rw [pyRange_cons hpp hn, List.length_drop]
  simp only [List.map_cons, List.map_map]
  congr 1
  apply List.map_congr_left
  intro i _
  simp only [Function.comp]
  rw [List.drop_drop, Nat.add_comm]

theorem paginate_props (t : String) (pp : Nat) (hpp : 0 < pp) :
    ∀ (n : Nat) (items : List Rec), items.length ≤ n →
      (∀ pg ∈ Paginator.paginate ⟨t, items, pp⟩,
        ∃ chunk, pg = [(t, chunk)] ∧ chunk.length ≤ pp) ∧
      pagesJoin (Paginator.paginate ⟨t, items, pp⟩) = items := by
  intro n
  induction n with
  | zero =>
    intro items hlen
    have he : items = [] := List.length_eq_zero.1 (Nat.le_zero.1 hlen)
    subst he
    simp [paginate_nil, pagesJoin]
  | succ n ih =>
    intro items hlen
    by_cases hne : items = []
    · subst hne
      simp [paginate_nil, pagesJoin]
    · rw [paginate_cons hpp t hne]
      obtain ⟨ihmem, ihjoin⟩ := ih (items.drop pp) (by
        rw [List.length_drop]
        have : 0 < items.length := List.length_pos.2 hne
        omega)
      constructor
      · intro pg hpg
        rcases List.mem_cons.1 hpg with h | h
        · refine ⟨items.take pp, h, ?_⟩
          rw [List.length_take]
          exact min_le_left _ _
        · exact ihmem pg h
      · show pagesJoin ([(t, items.take pp)] :: _) = items
        have hj : ∀ (pgs : List Page) (chunk : List Rec),
            pagesJoin ([(t, chunk)] :: pgs) = chunk ++ pagesJoin pgs := by
          intro pgs chunk
          simp [pagesJoin]
        rw [hj, ihjoin, List.take_append_drop]

/-- Claim C7: on a fixed collection of N items with page size P (positive;
Python range raises on a zero step), pagination yields ceil(N/P) pages, each
page a single-key mapping from the summary title to at most P items,
concatenating the pages' items restores the collection exactly, and an empty
collection yields no pages. -/
theorem claim7 (title : String) (items : List Rec) (pp : Nat) (hpp : 0 < pp) :
    (Paginator.paginate ⟨title, items, pp⟩).length = (items.length + pp - 1) / pp ∧
    (∀ pg ∈ Paginator.paginate ⟨title, items, pp⟩,
      ∃ chunk, pg = [(title, chunk)] ∧ chunk.length ≤ pp) ∧
    pagesJoin (Paginator.paginate ⟨title, items, pp⟩) = items ∧
    (items = [] → Paginator.paginate ⟨title, items, pp⟩ = []) := by
  obtain ⟨hmem, hjoin⟩ := paginate_props title pp hpp items.length items le_rfl
  refine ⟨?_, hmem, hjoin, ?_⟩
  · unfold Paginator.paginate pyRange
    have hpp' : pp ≠ 0 := by omega
    simp [hpp']
  · intro h
    subst h
    exact paginate_nil title pp

/-- Witness for C7 on the three-job collection: page count, a member page,
order-preserving concatenation, and the empty case. -/
theorem claim7_witness :
    (Paginator.paginate ⟨"TrainingJobSummaries", c2base.training_jobs, 2⟩).length =
      (c2base.training_jobs.length + 2 - 1) / 2 ∧
    (∃ chunk, ([("TrainingJobSummaries", [mkTJ "job-a", mkTJ "job-b"])] : Page) =
      [("TrainingJobSummaries", chunk)] ∧ chunk.length ≤ 2) ∧
    pagesJoin (Paginator.paginate ⟨"TrainingJobSummaries", c2base.training_jobs, 2⟩) =
      c2base.training_jobs ∧
    Paginator.paginate ⟨"TrainingJobSummaries", ([] : List Rec), 2⟩ = [] :=
  ⟨(claim7 "TrainingJobSummaries" c2base.training_jobs 2 (by decide)).1,
   (claim7 "TrainingJobSummaries" c2base.training_jobs 2 (by decide)).2.1
     [("TrainingJobSummaries", [mkTJ "job-a", mkTJ "job-b"])] (by decide),
   (claim7 "TrainingJobSummaries" c2base.training_jobs 2 (by decide)).2.2.1,
   (claim7 "TrainingJobSummaries" [] 2 (by decide)).2.2.2 rfl⟩

/-- Claim C2 as stated is refuted: the paginator iterates the client's live
list, so a training job created between the first and the second page of an
in-progress sequence appears in the second page, which therefore differs
from the pages of the unmutated run. -/
theorem claim2_counterexample :
    (create_training_job c2base (mkTJ "job-d")).isOk = true ∧
    (paginateLive "TrainingJobSummaries" 2 c2states)[1]? =
      some [("TrainingJobSummaries", [mkTJ "job-c", mkTJ "job-d"])] ∧
    paginateLive "TrainingJobSummaries" 2 c2states ≠
      paginateLive "TrainingJobSummaries" 2 (fun _ => c2base.training_jobs) :=
  ⟨by decide, by decide, by decide⟩

/-- Claim C2, amended: an in-progress page sequence reads the live
collection, not a snapshot.  Only the page count is fixed when the sequence
begins (from the collection length at that moment); each page's items are
sliced from the collection state at that page's yield, so the sequence
equals the pagination of the start-time snapshot when no mutation occurs
during it, while a record created mid-sequence can appear in later pages. -/
theorem claim2_amended (title : String) (pp : Nat) (stateAt : Nat → List Rec) :
    (paginateLive title pp stateAt).length =
      (Paginator.paginate ⟨title, stateAt 0, pp⟩).length ∧
    ((∀ k, stateAt k = stateAt 0) →
      paginateLive title pp stateAt = Paginator.paginate ⟨title, stateAt 0, pp⟩) ∧
    (∀ k pg, (paginateLive title pp stateAt)[k]? = some pg →
      pg = [(title, ((stateAt k).drop (k * pp)).take pp)]) := by
  refine ⟨?_, ?_, ?_⟩
  · unfold paginateLive Paginator.paginate
    simp
  · intro hconst
    unfold paginateLive Paginator.paginate pyRange
    by_cases hpp : pp = 0
    · simp [hpp]
    · simp only [if_neg hpp, List.length_map, List.length_range, List.map_map]
      apply List.map_congr_left
      intro k hk
      simp [Function.comp, hconst k]
  · intro k pg h
    unfold paginateLive at h
    by_cases hk : k < (pyRange 0 (stateAt 0).length pp).length
    · rw [List.getElem?_map, List.getElem?_range (by simpa using hk)] at h
      simp only [Option.map_some', Option.some.injEq] at h
      exact h.symm
    · have hnone :
          (List.range (pyRange 0 (stateAt 0).length pp).length)[k]? = none := by
        rw [List.getElem?_eq_none]
        simpa using Nat.le_of_not_lt hk
      rw [List.getElem?_map, hnone] at h
      simp at h

/-- Witness for the amended C2: the unmutated sequence equals the snapshot
pagination, and a mutated sequence's second page slices the state at its own
yield. -/
theorem claim2_witness :
    paginateLive "TrainingJobSummaries" 2 (fun _ => c2base.training_jobs) =
      Paginator.paginate ⟨"TrainingJobSummaries", c2base.training_jobs, 2⟩ ∧
    ([("TrainingJobSummaries", [mkTJ "job-c", mkTJ "job-d"])] : Page) =
      [("TrainingJobSummaries", ((c2states 1).drop (1 * 2)).take 2)] :=
  ⟨(claim2_amended "TrainingJobSummaries" 2 (fun _ => c2base.training_jobs)).2.1
      (fun _ => rfl),
   (claim2_amended "TrainingJobSummaries" 2 c2states).2.2 1
      [("TrainingJobSummaries", [mkTJ "job-c", mkTJ "job-d"])] (by decide)⟩

/-!
Heap-model lemmas and claim C3.
-/

theorem chainL_congr {res res' : Addr → Option Value}
    (hres : ∀ a v, res a = some v → res' a = some v) :
    ∀ (as : List Addr) (v : Value), chainL res as = some v → chainL res' as = some v := by
  intro as
  induction as with
  | nil => intro v hv; exact hv
  | cons a as ih =>
    intro v hv
    unfold chainL at hv ⊢
    rcases ha : res a with _ | va <;> rw [ha] at hv
    · simp at hv
    · rcases ht : chainL res as with _ | tl <;> rw [ht] at hv
      · simp at hv
      · rw [hres a va ha, ih tl ht]
        exact hv

theorem chainD_congr {res res' : Addr → Option Value}
    (hres : ∀ a v, res a = some v → res' a = some v) :
    ∀ (as : List (String × Addr)) (v : Value),
      chainD res as = some v → chainD res' as = some v := by
  intro as
  induction as with
  | nil => intro v hv; exact hv
  | cons p as ih =>
    obtain ⟨k, a⟩ := p
    intro v hv
    unfold chainD at hv ⊢
    rcases ha : res a with _ | va <;> rw [ha] at hv
    · simp at hv
    · rcases ht : chainD res as with _ | tl <;> rw [ht] at hv
      · simp at hv
      · rw [hres a va ha, ih tl ht]
        exact hv

theorem copyChainL_extend {cp : Heap → Addr → Option (Heap × Addr)}
    (hcp : ∀ (h : Heap) (a : Addr) (out : Heap × Addr),
      cp h a = some out → ∃ ext, out.1 = h ++ ext) :
    ∀ (as : List Addr) (h : Heap) (out : Heap × List Addr),
      copyChainL cp h as = some out → ∃ ext, out.1 = h ++ ext := by
  intro as
  induction as with
  | nil =>
    intro h out ho
    unfold copyChainL at ho
    simp only [Option.some.injEq] at ho
    exact ⟨[], by rw [← ho]; simp⟩
  | cons a as ih =>
    intro h out ho
    unfold copyChainL at ho
    split at ho
    next => simp at ho
    next h1 a' hc =>
      split at ho
      next => simp at ho
      next h2 as' hl =>
        simp only [Option.some.injEq] at ho
        obtain ⟨ext1, he1⟩ := hcp h a _ hc
        obtain ⟨ext2, he2⟩ := ih h1 _ hl
        refine ⟨ext1 ++ ext2, ?_⟩
        rw [← ho]
        simp only at he1 he2 ⊢
        rw [he2, he1, List.append_assoc]

theorem copyChainD_extend {cp : Heap → Addr → Option (Heap × Addr)}
    (hcp : ∀ (h : Heap) (a : Addr) (out : Heap × Addr),
      cp h a = some out → ∃ ext, out.1 = h ++ ext) :
    ∀ (as : List (String × Addr)) (h : Heap) (out : Heap × List (String × Addr)),
      copyChainD cp h as = some out → ∃ ext, out.1 = h ++ ext := by
  intro as
  induction as with
  | nil =>
    intro h out ho
    unfold copyChainD at ho
    simp only [Option.some.injEq] at ho
    exact ⟨[], by rw [← ho]; simp⟩
  | cons p as ih =>
    obtain ⟨k, a⟩ := p
    intro h out ho
    unfold copyChainD at ho
    split at ho
    next => simp at ho
    next h1 a' hc =>
      split at ho
      next => simp at ho
      next h2 as' hl =>
        simp only [Option.some.injEq] at ho
        obtain ⟨ext1, he1⟩ := hcp h a _ hc
        obtain ⟨ext2, he2⟩ := ih h1 _ hl
        refine ⟨ext1 ++ ext2, ?_⟩
        rw [← ho]
        simp only at he1 he2 ⊢
        rw [he2, he1, List.append_assoc]

theorem deepcopy_extend :
    ∀ (fuel : Nat) (h : Heap) (a : Addr) (out : Heap × Addr),
      deepcopy fuel h a = some out →
        (∃ ext, out.1 = h ++ ext) ∧ h.length ≤ out.2 := by
  intro fuel
  induction fuel with
  | zero => intro h a out ho; simp [deepcopy] at ho
  | succ fuel ih =>
    intro h a out ho
    unfold deepcopy at ho
    split at ho
    next => simp at ho
    next s hg =>
      simp only [Option.some.injEq] at ho
      exact ⟨⟨[HObj.str s], by rw [← ho]⟩, by rw [← ho]⟩
    next n hg =>
      simp only [Option.some.injEq] at ho
      exact ⟨⟨[HObj.num n], by rw [← ho]⟩, by rw [← ho]⟩
    next xs hg =>
      split at ho
      next => simp at ho
      next h2 xs' hc =>
        simp only [Option.some.injEq] at ho
        obtain ⟨ext, he⟩ :=
          copyChainL_extend (fun hh aa oo hc2 => (ih hh aa oo hc2).1) xs h (h2, xs') hc
        simp only at he
        refine ⟨⟨ext ++ [HObj.listO xs'], ?_⟩, ?_⟩
        · rw [← ho]
          simp only
          rw [he, List.append_assoc]
        · rw [← ho]
          simp only
          rw [he]
          simp
    next xs hg =>
      split at ho
      next => simp at ho
      next h2 xs' hc =>
        simp only [Option.some.injEq] at ho
        obtain ⟨ext, he⟩ :=
          copyChainD_extend (fun hh aa oo hc2 => (ih hh aa oo hc2).1) xs h (h2, xs') hc
        simp only at he
        refine ⟨⟨ext ++ [HObj.dictO xs'], ?_⟩, ?_⟩
        · rw [← ho]
          simp only
          rw [he, List.append_assoc]
        · rw [← ho]
          simp only
          rw [he]
          simp

theorem getElem?_append_some {h ext : Heap} {a : Addr} {o : HObj}
    (hg : h[a]? = some o) : (h ++ ext)[a]? = some o := by
  have hlt : a < h.length := by
    by_contra hk
    rw [List.getElem?_eq_none (Nat.le_of_not_lt hk)] at hg
    simp at hg
  rw [List.getElem?_append, if_pos hlt]
  exact hg

theorem resolve_mono :
    ∀ (fuel : Nat) (h ext : Heap) (a : Addr) (v : Value),
      resolve fuel h a = some v → resolve fuel (h ++ ext) a = some v := by
  intro fuel
  induction fuel with
  | zero => intro h ext a v hr; simp [resolve] at hr
  | succ fuel ih =>
    intro h ext a v hr
    unfold resolve at hr ⊢
    rcases hg : h[a]? with _ | o <;> rw [hg] at hr
    · simp at hr
    · rw [getElem?_append_some hg]
      cases o with
      | str s => exact hr
      | num n => exact hr
      | listO xs => exact chainL_congr (fun b w hw => ih h ext b w hw) xs v hr
      | dictO xs => exact chainD_congr (fun b w hw => ih h ext b w hw) xs v hr

theorem chainL_copy_resolve {cp : Heap → Addr → Option (Heap × Addr)}
    {res : Heap → Addr → Option Value}
    (hext : ∀ (h : Heap) (a : Addr) (out : Heap × Addr),
      cp h a = some out → ∃ ext, out.1 = h ++ ext)
    (hmono : ∀ (h ext : Heap) (a : Addr) (v : Value),
      res h a = some v → res (h ++ ext) a = some v)
    (hcr : ∀ (h : Heap) (a : Addr) (out : Heap × Addr) (v : Value),
      cp h a = some out → res h a = some v → res out.1 out.2 = some v) :
    ∀ (as : List Addr) (h : Heap) (out : Heap × List Addr) (v : Value),
      copyChainL cp h as = some out → chainL (res h) as = some v →
      chainL (res out.1) out.2 = some v := by
  intro as
  induction as with
  | nil =>
    intro h out v ho hv
    unfold copyChainL at ho
    simp only [Option.some.injEq] at ho
    rw [← ho]
    exact hv
  | cons a as ih =>
    intro h out v ho hv
    unfold copyChainL at ho
    unfold chainL at hv
    split at ho
    next => simp at ho
    next h1 a' hc =>
      split at ho
      next => simp at ho
      next h2 as' hl =>
        simp only [Option.some.injEq] at ho
        rcases ha : res h a with _ | va <;> rw [ha] at hv
        · simp at hv
        · rcases ht : chainL (res h) as with _ | tl <;> rw [ht] at hv
          · simp at hv
          · obtain ⟨ext1, he1⟩ := hext h a (h1, a') hc
            simp only at he1
            have ht1 : chainL (res h1) as = some tl :=
              chainL_congr (fun b w hw => by rw [he1]; exact hmono h ext1 b w hw) as tl ht
            have ih' := ih h1 (h2, as') tl hl ht1
            simp only at ih'
            have hva1 : res h1 a' = some va := hcr h a (h1, a') va hc ha
            obtain ⟨ext2, he2⟩ :=
              copyChainL_extend (fun hh aa oo hc2 => hext hh aa oo hc2) as h1 (h2, as') hl
            simp only at he2
            have hva2 : res h2 a' = some va := by
              rw [he2]; exact hmono h1 ext2 a' va hva1
            rw [← ho]
            unfold chainL
            rw [hva2, ih']
            exact hv

theorem chainD_copy_resolve {cp : Heap → Addr → Option (Heap × Addr)}
    {res : Heap → Addr → Option Value}
    (hext : ∀ (h : Heap) (a : Addr) (out : Heap × Addr),
      cp h a = some out → ∃ ext, out.1 = h ++ ext)
    (hmono : ∀ (h ext : Heap) (a : Addr) (v : Value),
      res h a = some v → res (h ++ ext) a = some v)
    (hcr : ∀ (h : Heap) (a : Addr) (out : Heap × Addr) (v : Value),
      cp h a = some out → res h a = some v → res out.1 out.2 = some v) :
    ∀ (as : List (String × Addr)) (h : Heap) (out : Heap × List (String × Addr))
      (v : Value),
      copyChainD cp h as = some out → chainD (res h) as = some v →
      chainD (res out.1) out.2 = some v := by
  intro as
  induction as with
  | nil =>
    intro h out v ho hv
    unfold copyChainD at ho
    simp only [Option.some.injEq] at ho
    rw [← ho]
    exact hv
  | cons p as ih =>
    obtain ⟨k, a⟩ := p
    intro h out v ho hv
    unfold copyChainD at ho
    unfold chainD at hv
    split at ho
    next => simp at ho
    next h1 a' hc =>
      split at ho
      next => simp at ho
      next h2 as' hl =>
        simp only [Option.some.injEq] at ho
        rcases ha : res h a with _ | va <;> rw [ha] at hv
        · simp at hv
        · rcases ht : chainD (res h) as with _ | tl <;> rw [ht] at hv
          · simp at hv
          · obtain ⟨ext1, he1⟩ := hext h a (h1, a') hc
            simp only at he1
            have ht1 : chainD (res h1) as = some tl :=
              chainD_congr (fun b w hw => by rw [he1]; exact hmono h ext1 b w hw) as tl ht
            have ih' := ih h1 (h2, as') tl hl ht1
            simp only at ih'
            have hva1 : res h1 a' = some va := hcr h a (h1, a') va hc ha
            obtain ⟨ext2, he2⟩ :=
              copyChainD_extend (fun hh aa oo hc2 => hext hh aa oo hc2) as h1 (h2, as') hl
            simp only at he2
            have hva2 : res h2 a' = some va := by
              rw [he2]; exact hmono h1 ext2 a' va hva1
            rw [← ho]
            unfold chainD
            rw [hva2, ih']
            exact hv

theorem deepcopy_resolve :
    ∀ (fuel : Nat) (h : Heap) (a : Addr) (out : Heap × Addr) (v : Value),
      deepcopy fuel h a = some out → resolve fuel h a = some v →
      resolve fuel out.1 out.2 = some v := by
  intro fuel
  induction fuel with
  | zero => intro h a out v ho hr; simp [deepcopy] at ho
  | succ fuel ih =>
    intro h a out v ho hr
    unfold deepcopy at ho
    unfold resolve at hr
    split at ho
    next hg => simp at ho
    next s hg =>
      rw [hg] at hr
      simp only [Option.some.injEq] at ho
      rw [← ho]
      unfold resolve
      rw [List.getElem?_concat_length]
      exact hr
    next n hg =>
      rw [hg] at hr
      simp only [Option.some.injEq] at ho
      rw [← ho]
      unfold resolve
      rw [List.getElem?_concat_length]
      exact hr
    next xs hg =>
      rw [hg] at hr
      split at ho
      next => simp at ho
      next h2 xs' hc =>
        simp only [Option.some.injEq] at ho
        rw [← ho]
        unfold resolve
        rw [List.getElem?_concat_length]
        have hr' : chainL (fun b => resolve fuel h b) xs = some v := hr
        have hstep :=
          chainL_copy_resolve (fun hh aa oo hc2 => (deepcopy_extend fuel hh aa oo hc2).1)
            (fun hh ee aa vv hv2 => resolve_mono fuel hh ee aa vv hv2)
            (fun hh aa oo vv hc2 hv2 => ih hh aa oo vv hc2 hv2)
            xs h (h2, xs') v hc hr'
        simp only at hstep
        exact chainL_congr
          (fun b w hw => resolve_mono fuel h2 [HObj.listO xs'] b w hw) xs' v hstep
    next xs hg =>
      rw [hg] at hr
      split at ho
      next => simp at ho
      next h2 xs' hc =>
        simp only [Option.some.injEq] at ho
        rw [← ho]
        unfold resolve
        rw [List.getElem?_concat_length]
        have hr' : chainD (fun b => resolve fuel h b) xs = some v := hr
        have hstep :=
          chainD_copy_resolve (fun hh aa oo hc2 => (deepcopy_extend fuel hh aa oo hc2).1)
            (fun hh ee aa vv hv2 => resolve_mono fuel hh ee aa vv hv2)
            (fun hh aa oo vv hc2 hv2 => ih hh aa oo vv hc2 hv2)
            xs h (h2, xs') v hc hr'
        simp only at hstep
        exact chainD_congr
          (fun b w hw => resolve_mono fuel h2 [HObj.dictO xs'] b w hw) xs' v hstep

/-- Claim C3 as stated is refuted: create_training_job appends the kwargs
mapping itself, whose values alias the caller's objects.  In the scenario,
the caller mutates its own hyper-parameter dict after the create, and a
subsequent describe observes the new value — the stored record is not a deep
copy of the input. -/
theorem claim3_counterexample :
    c3create.isOk = true ∧
    (c3describe c3st1).bind (Value.dget "HyperParameters") =
      some (.dcons "lr" (.num 1) .dnil) ∧
    (c3describe c3mutated).bind (Value.dget "HyperParameters") =
      some (.dcons "lr" (.num 2) .dnil) ∧
    c3describe c3st1 ≠ c3describe c3mutated :=
  ⟨by decide, by decide, by decide, by decide⟩


theorem chainL_congr_mem {res res' : Addr → Option Value} :
    ∀ (as : List Addr),
      (∀ a ∈ as, ∀ w, res a = some w → res' a = some w) →
      ∀ v, chainL res as = some v → chainL res' as = some v := by
  intro as
  induction as with
  | nil => intro _ v hv; exact hv
  | cons a as ih =>
    intro hres v hv
    unfold chainL at hv ⊢
    rcases ha : res a with _ | va <;> rw [ha] at hv
    · simp at hv
    · rcases ht : chainL res as with _ | tl <;> rw [ht] at hv
      · simp at hv
      · rw [hres a (List.mem_cons_self a as) va ha,
          ih (fun c hc w hw => hres c (List.mem_cons_of_mem a hc) w hw) tl ht]
        exact hv

theorem chainD_congr_mem {res res' : Addr → Option Value} :
    ∀ (as : List (String × Addr)),
      (∀ p ∈ as, ∀ w, res p.2 = some w → res' p.2 = some w) →
      ∀ v, chainD res as = some v → chainD res' as = some v := by
  intro as
  induction as with
  | nil => intro _ v hv; exact hv
  | cons p as ih =>
    obtain ⟨k, a⟩ := p
    intro hres v hv
    unfold chainD at hv ⊢
    rcases ha : res a with _ | va <;> rw [ha] at hv
    · simp at hv
    · rcases ht : chainD res as with _ | tl <;> rw [ht] at hv
      · simp at hv
      · rw [hres (k, a) (List.mem_cons_self (k, a) as) va ha,
          ih (fun c hc w hw => hres c (List.mem_cons_of_mem (k, a) hc) w hw) tl ht]
        exact hv

theorem freshGraph_le :
    ∀ (fuel lo lo' : Nat), lo' ≤ lo → ∀ (h : Heap) (a : Addr),
      freshGraph lo fuel h a = true → freshGraph lo' fuel h a = true := by
  intro fuel
  induction fuel with
  | zero => intro lo lo' hlo h a hg; simp [freshGraph] at hg
  | succ fuel ih =>
    intro lo lo' hlo h a hg
    unfold freshGraph at hg ⊢
    simp only [Bool.and_eq_true] at hg ⊢
    obtain ⟨h1, h2⟩ := hg
    refine ⟨by simp only [decide_eq_true_eq] at h1 ⊢; omega, ?_⟩
    split at h2
    next heq => simp at h2
    next s heq => rfl
    next n heq => rfl
    next xs heq =>
      rw [List.all_eq_true] at h2 ⊢
      intro c hc
      exact ih lo lo' hlo h c (h2 c hc)
    next xs heq =>
      rw [List.all_eq_true] at h2 ⊢
      intro p hp
      exact ih lo lo' hlo h p.2 (h2 p hp)

theorem freshGraph_append :
    ∀ (fuel lo : Nat) (h ext : Heap) (a : Addr),
      freshGraph lo fuel h a = true → freshGraph lo fuel (h ++ ext) a = true := by
  intro fuel
  induction fuel with
  | zero => intro lo h ext a hg; simp [freshGraph] at hg
  | succ fuel ih =>
    intro lo h ext a hg
    unfold freshGraph at hg ⊢
    simp only [Bool.and_eq_true] at hg ⊢
    obtain ⟨h1, h2⟩ := hg
    refine ⟨h1, ?_⟩
    split at h2
    next heq => simp at h2
    next s heq => simp only [getElem?_append_some heq]
    next n heq => simp only [getElem?_append_some heq]
    next xs heq =>
      simp only [getElem?_append_some heq]
      rw [List.all_eq_true] at h2 ⊢
      intro c hc
      exact ih lo h ext c (h2 c hc)
    next xs heq =>
      simp only [getElem?_append_some heq]
      rw [List.all_eq_true] at h2 ⊢
      intro p hp
      exact ih lo h ext p.2 (h2 p hp)

theorem resolve_set_of_freshGraph :
    ∀ (fuel lo : Nat) (h : Heap) (a b : Addr) (o : HObj) (v : Value),
      freshGraph lo fuel h a = true → b < lo →
      resolve fuel h a = some v → resolve fuel (h.set b o) a = some v := by
  intro fuel
  induction fuel with
  | zero => intro lo h a b o v hg hb hr; simp [freshGraph] at hg
  | succ fuel ih =>
    intro lo h a b o v hg hb hr
    unfold freshGraph at hg
    simp only [Bool.and_eq_true] at hg
    obtain ⟨h1, h2⟩ := hg
    have hba : b ≠ a := by
      simp only [decide_eq_true_eq] at h1
      exact Nat.ne_of_lt (Nat.lt_of_lt_of_le hb h1)
    have hset : (h.set b o)[a]? = h[a]? := List.getElem?_set_ne hba
    unfold resolve at hr ⊢
    rw [hset]
    split at h2
    next heq => simp at h2
    next s heq =>
      rw [heq] at hr
      exact hr
    next n heq =>
      rw [heq] at hr
      exact hr
    next xs heq =>
      rw [heq] at hr
      rw [List.all_eq_true] at h2
      exact chainL_congr_mem xs
        (fun c hc w hw => ih lo h c b o w (h2 c hc) hb hw) v hr
    next xs heq =>
      rw [heq] at hr
      rw [List.all_eq_true] at h2
      exact chainD_congr_mem xs
        (fun p hp w hw => ih lo h p.2 b o w (h2 p hp) hb hw) v hr

theorem copyChainL_freshGraph (fuel : Nat) {cp : Heap → Addr → Option (Heap × Addr)}
    (hext : ∀ (h : Heap) (a : Addr) (out : Heap × Addr),
      cp h a = some out → ∃ ext, out.1 = h ++ ext)
    (hfresh : ∀ (h : Heap) (a : Addr) (out : Heap × Addr),
      cp h a = some out → freshGraph h.length fuel out.1 out.2 = true) :
    ∀ (as : List Addr) (h : Heap) (out : Heap × List Addr),
      copyChainL cp h as = some out →
      ∀ b ∈ out.2, freshGraph h.length fuel out.1 b = true := by
  intro as
  induction as with
  | nil =>
    intro h out ho b hb
    unfold copyChainL at ho
    simp only [Option.some.injEq] at ho
    rw [← ho] at hb
    simp at hb
  | cons a as ih =>
    intro h out ho b hb
    unfold copyChainL at ho
    split at ho
    next => simp at ho
    next h1 a' hc =>
      split at ho
      next => simp at ho
      next h2 as' hl =>
        simp only [Option.some.injEq] at ho
        rw [← ho] at hb ⊢
        simp only at hb ⊢
        obtain ⟨ext1, he1⟩ := hext h a (h1, a') hc
        simp only at he1
        rcases List.mem_cons.1 hb with hbe | hbm
        · subst hbe
          obtain ⟨ext2, he2⟩ := copyChainL_extend hext as h1 (h2, as') hl
          simp only at he2
          rw [he2]
          exact freshGraph_append fuel h.length h1 ext2 b (hfresh h a (h1, b) hc)
        · exact freshGraph_le fuel h1.length h.length (by rw [he1]; simp) h2 b
            (ih h1 (h2, as') hl b hbm)

theorem copyChainD_freshGraph (fuel : Nat) {cp : Heap → Addr → Option (Heap × Addr)}
    (hext : ∀ (h : Heap) (a : Addr) (out : Heap × Addr),
      cp h a = some out → ∃ ext, out.1 = h ++ ext)
    (hfresh : ∀ (h : Heap) (a : Addr) (out : Heap × Addr),
      cp h a = some out → freshGraph h.length fuel out.1 out.2 = true) :
    ∀ (as : List (String × Addr)) (h : Heap) (out : Heap × List (String × Addr)),
      copyChainD cp h as = some out →
      ∀ p ∈ out.2, freshGraph h.length fuel out.1 p.2 = true := by
  intro as
  induction as with
  | nil =>
    intro h out ho p hp
    unfold copyChainD at ho
    simp only [Option.some.injEq] at ho
    rw [← ho] at hp
    simp at hp
  | cons q as ih =>
    obtain ⟨k, a⟩ := q
    intro h out ho p hp
    unfold copyChainD at ho
    split at ho
    next => simp at ho
    next h1 a' hc =>
      split at ho
      next => simp at ho
      next h2 as' hl =>
        simp only [Option.some.injEq] at ho
        rw [← ho] at hp ⊢
        simp only at hp ⊢
        obtain ⟨ext1, he1⟩ := hext h a (h1, a') hc
        simp only at he1
        rcases List.mem_cons.1 hp with hpe | hpm
        · subst hpe
          obtain ⟨ext2, he2⟩ := copyChainD_extend hext as h1 (h2, as') hl
          simp only at he2
          rw [he2]
          exact freshGraph_append fuel h.length h1 ext2 a' (hfresh h a (h1, a') hc)
        · exact freshGraph_le fuel h1.length h.length (by rw [he1]; simp) h2 p.2
            (ih h1 (h2, as') hl p hpm)

theorem deepcopy_freshGraph :
    ∀ (fuel : Nat) (h : Heap) (a : Addr) (out : Heap × Addr),
      deepcopy fuel h a = some out → freshGraph h.length fuel out.1 out.2 = true := by
  intro fuel
  induction fuel with
  | zero => intro h a out ho; simp [deepcopy] at ho
  | succ fuel ih =>
    intro h a out ho
    unfold deepcopy at ho
    split at ho
    next => simp at ho
    next s hg =>
      simp only [Option.some.injEq] at ho
      rw [← ho]
      unfold freshGraph
      simp [List.getElem?_concat_length]
    next n hg =>
      simp only [Option.some.injEq] at ho
      rw [← ho]
      unfold freshGraph
      simp [List.getElem?_concat_length]
    next xs hg =>
      split at ho
      next => simp at ho
      next h2 xs' hc =>
        simp only [Option.some.injEq] at ho
        rw [← ho]
        simp only
        obtain ⟨ext, he⟩ := copyChainL_extend
          (fun hh aa oo hc2 => (deepcopy_extend fuel hh aa oo hc2).1) xs h (h2, xs') hc
        simp only at he
        unfold freshGraph
        simp only [List.getElem?_concat_length, Bool.and_eq_true, decide_eq_true_eq]
        constructor
        · rw [he]; simp
        · rw [List.all_eq_true]
          intro b hb
          exact freshGraph_append fuel h.length h2 [HObj.listO xs'] b
            (copyChainL_freshGraph fuel
              (fun hh aa oo hc2 => (deepcopy_extend fuel hh aa oo hc2).1)
              (fun hh aa oo hc2 => ih hh aa oo hc2)
              xs h (h2, xs') hc b hb)
    next xs hg =>
      split at ho
      next => simp at ho
      next h2 xs' hc =>
        simp only [Option.some.injEq] at ho
        rw [← ho]
        simp only
        obtain ⟨ext, he⟩ := copyChainD_extend
          (fun hh aa oo hc2 => (deepcopy_extend fuel hh aa oo hc2).1) xs h (h2, xs') hc
        simp only at he
        unfold freshGraph
        simp only [List.getElem?_concat_length, Bool.and_eq_true, decide_eq_true_eq]
        constructor
        · rw [he]; simp
        · rw [List.all_eq_true]
          intro p hp
          exact freshGraph_append fuel h.length h2 [HObj.dictO xs'] p.2
            (copyChainD_freshGraph fuel
              (fun hh aa oo hc2 => (deepcopy_extend fuel hh aa oo hc2).1)
              (fun hh aa oo hc2 => ih hh aa oo hc2)
              xs h (h2, xs') hc p hp)

theorem resolve_set_high (fuel : Nat) (h ext : Heap) (b : Addr) (o : HObj)
    (a : Addr) (v : Value) (hb : h.length ≤ b) (hr : resolve fuel h a = some v) :
    resolve fuel ((h ++ ext).set b o) a = some v := by
  rw [List.set_append_right _ _ hb]
  exact resolve_mono fuel h _ a v hr

theorem deepcopyKw_copyOut (fuel : Nat) (base : Heap) (kw' : List (String × Addr))
    (h2 : Heap) (kw2 : List (String × Addr))
    (hdc : deepcopyKw fuel base kw' = some (h2, kw2)) :
    CopyOut fuel base (h2 ++ [HObj.dictO kw2]) h2.length ∧
    (∀ v, resolveKw fuel base kw' = some v →
      resolve (fuel + 1) (h2 ++ [HObj.dictO kw2]) h2.length = some v) := by
  have hdc' : copyChainD (fun hh b => deepcopy fuel hh b) base kw' = some (h2, kw2) := hdc
  obtain ⟨ext, he⟩ := copyChainD_extend
    (fun hh aa oo hc2 => (deepcopy_extend fuel hh aa oo hc2).1) kw' base (h2, kw2) hdc'
  simp only at he
  have hext2 : h2 ++ [HObj.dictO kw2] = base ++ (ext ++ [HObj.dictO kw2]) := by
    rw [he, List.append_assoc]
  have hfreshAll :
      freshGraph base.length (fuel + 1) (h2 ++ [HObj.dictO kw2]) h2.length = true := by
    unfold freshGraph
    simp only [List.getElem?_concat_length, Bool.and_eq_true, decide_eq_true_eq]
    constructor
    · rw [he]; simp
    · rw [List.all_eq_true]
      intro p hp
      exact freshGraph_append fuel base.length h2 [HObj.dictO kw2] p.2
        (copyChainD_freshGraph fuel
          (fun hh aa oo hc2 => (deepcopy_extend fuel hh aa oo hc2).1)
          (fun hh aa oo hc2 => deepcopy_freshGraph fuel hh aa oo hc2)
          kw' base (h2, kw2) hdc' p hp)
  refine ⟨⟨⟨ext ++ [HObj.dictO kw2], hext2⟩, by rw [he]; simp, hfreshAll, ?_, ?_⟩, ?_⟩
  · intro b o av v hb hr
    rw [hext2]
    exact resolve_set_high fuel base (ext ++ [HObj.dictO kw2]) b o av v hb hr
  · intro b o v hb hr
    exact resolve_set_of_freshGraph (fuel + 1) base.length (h2 ++ [HObj.dictO kw2])
      h2.length b o v hfreshAll hb hr
  · intro v hv
    have hv' : chainD (fun b => resolve fuel base b) kw' = some v := hv
    have hstep := chainD_copy_resolve
      (fun hh aa oo hc2 => (deepcopy_extend fuel hh aa oo hc2).1)
      (fun hh ee aa vv hv2 => resolve_mono fuel hh ee aa vv hv2)
      (fun hh aa oo vv hc2 hv2 => deepcopy_resolve fuel hh aa oo vv hc2 hv2)
      kw' base (h2, kw2) v hdc' hv'
    simp only at hstep
    unfold resolve
    rw [List.getElem?_concat_length]
    exact chainD_congr (fun b w hw => resolve_mono fuel h2 [HObj.dictO kw2] b w hw)
      kw2 v hstep

theorem hcreateIn_spec (fuel : Nat) (expected : Finset String) (idK : String)
    (heap : Heap) (l : List (List (String × Addr))) (kw : List (String × Addr))
    (out : Addr × Heap × List (List (String × Addr)))
    (h : hcreateIn fuel expected idK heap l kw = .ok out) :
    out.2.2 = l ++ [kw] ∧ CopyOut fuel heap out.2.1 out.1 ∧
    (∀ v, resolveKw fuel heap kw = some v →
      resolve (fuel + 1) out.2.1 out.1 = some v) := by
  unfold hcreateIn at h
  split at h
  case isFalse => simp at h
  case isTrue hks =>
    split at h
    next => simp at h
    next na hf =>
      split at h
      next e hget => simp at h
      next t hget => simp at h
      next hget =>
        split at h
        next hdc => simp at h
        next h2 kw2 hdc =>
          simp only [Except.ok.injEq] at h
          rw [← h]
          obtain ⟨hco, hval⟩ := deepcopyKw_copyOut fuel heap kw h2 kw2 hdc
          exact ⟨rfl, hco, hval⟩

theorem hcreate_endpoint_spec (fuel : Nat) (st : HState)
    (kw : List (String × Addr)) (out : Addr × HState) (na : Addr) (nv : Value)
    (h : hcreate_endpoint fuel st kw = .ok out)
    (hf : hfind kw "EndpointName" = some na)
    (hnv : resolve fuel st.heap na = some nv) :
    out.2.endpoints = st.endpoints ++ [kw ++ [("EndpointArn", st.heap.length)]] ∧
    CopyOut fuel (st.heap ++ [HObj.str (mkEndpointArn st.aws_region nv)])
      out.2.heap out.1 ∧
    (∀ v, resolveKw fuel (st.heap ++ [HObj.str (mkEndpointArn st.aws_region nv)])
        (kw ++ [("EndpointArn", st.heap.length)]) = some v →
      resolve (fuel + 1) out.2.heap out.1 = some v) := by
  unfold hcreate_endpoint at h
  split at h
  case isFalse => simp at h
  case isTrue hks =>
    split at h
    next => simp at h
    next na0 hf0 =>
      have hna : na0 = na := Option.some.inj (hf0.symm.trans hf)
      subst hna
      split at h
      next e hget => simp at h
      next t hget => simp at h
      next hget =>
        split at h
        next hr0 => simp at h
        next nv0 hr0 =>
          have hnv0 : nv0 = nv := Option.some.inj (hr0.symm.trans hnv)
          subst hnv0
          split at h
          next hdc => simp at h
          next h2 kw2 hdc =>
            simp only [Except.ok.injEq] at h
            rw [← h]
            obtain ⟨hco, hval⟩ := deepcopyKw_copyOut fuel
              (st.heap ++ [HObj.str (mkEndpointArn st.aws_region nv0)])
              (kw ++ [("EndpointArn", st.heap.length)]) h2 kw2 hdc
            exact ⟨rfl, hco, hval⟩

/-- Claim C3, amended: for every resource type, a successful create stores
the argument mapping itself (for endpoints, with the store-added EndpointArn
pair appended) — its field values alias the caller's objects, so mutating a
nested input value after create can change a later describe, as the
counterexample shows.  The record returned to the caller is a genuine deep
copy of the stored mapping: the heap only grows, the returned address is
fresh, the returned record's entire object graph lives in cells allocated by
the call (freshGraph), mutating any such fresh cell changes no resolution
valid before the call — so mutating the returned value never changes store
state — and mutating any pre-existing cell never changes the returned
record's value.  A shallow copy fails the last three conjuncts. -/
theorem claim3_amended :
    (∀ (fuel : Nat) (st : HState) (kw : List (String × Addr)) (out : Addr × HState),
        hcreate_training_job fuel st kw = .ok out →
        out.2.training_jobs = st.training_jobs ++ [kw] ∧
        CopyOut fuel st.heap out.2.heap out.1 ∧
        (∀ v, resolveKw fuel st.heap kw = some v →
          resolve (fuel + 1) out.2.heap out.1 = some v)) ∧
    (∀ (fuel : Nat) (st : HState) (kw : List (String × Addr)) (out : Addr × HState),
        hcreate_model fuel st kw = .ok out →
        out.2.models = st.models ++ [kw] ∧
        CopyOut fuel st.heap out.2.heap out.1 ∧
        (∀ v, resolveKw fuel st.heap kw = some v →
          resolve (fuel + 1) out.2.heap out.1 = some v)) ∧
    (∀ (fuel : Nat) (st : HState) (kw : List (String × Addr)) (out : Addr × HState),
        hcreate_endpoint_config fuel st kw = .ok out →
        out.2.endpoint_configs = st.endpoint_configs ++ [kw] ∧
        CopyOut fuel st.heap out.2.heap out.1 ∧
        (∀ v, resolveKw fuel st.heap kw = some v →
          resolve (fuel + 1) out.2.heap out.1 = some v)) ∧
    (∀ (fuel : Nat) (st : HState) (kw : List (String × Addr)) (out : Addr × HState)
        (na : Addr) (nv : Value),
        hcreate_endpoint fuel st kw = .ok out →
        hfind kw "EndpointName" = some na →
        resolve fuel st.heap na = some nv →
        out.2.endpoints = st.endpoints ++ [kw ++ [("EndpointArn", st.heap.length)]] ∧
        CopyOut fuel (st.heap ++ [HObj.str (mkEndpointArn st.aws_region nv)])
          out.2.heap out.1 ∧
        (∀ v, resolveKw fuel (st.heap ++ [HObj.str (mkEndpointArn st.aws_region nv)])
            (kw ++ [("EndpointArn", st.heap.length)]) = some v →
          resolve (fuel + 1) out.2.heap out.1 = some v)) := by
  refine ⟨?_, ?_, ?_, ?_⟩
  · intro fuel st kw out h
    unfold hcreate_training_job at h
    split at h
    next => simp at h
    next a hp lc heq =>
      simp only [Except.ok.injEq] at h
      rw [← h]
      have hs := hcreateIn_spec fuel tjKeys "TrainingJobName" st.heap st.training_jobs
        kw (a, hp, lc) heq
      simp only at hs
      exact hs
  · intro fuel st kw out h
    unfold hcreate_model at h
    split at h
    next => simp at h
    next a hp lc heq =>
      simp only [Except.ok.injEq] at h
      rw [← h]
      have hs := hcreateIn_spec fuel modelKeys "ModelName" st.heap st.models
        kw (a, hp, lc) heq
      simp only at hs
      exact hs
  · intro fuel st kw out h
    unfold hcreate_endpoint_config at h
    split at h
    next => simp at h
    next a hp lc heq =>
      simp only [Except.ok.injEq] at h
      rw [← h]
      have hs := hcreateIn_spec fuel epcKeys "EndpointConfigName" st.heap
        st.endpoint_configs kw (a, hp, lc) heq
      simp only at hs
      exact hs
  · intro fuel st kw out na nv h hf hnv
    exact hcreate_endpoint_spec fuel st kw out na nv h hf hnv

/-- Witness for the amended C3: on the concrete training-job scenario the
stored record is the kwargs mapping, the returned address is fresh, its
whole graph lives in fresh cells and it resolves to the input's deep value;
on the concrete endpoint scenario the stored record is the kwargs mapping
with the store-added EndpointArn pair, and the returned address lies above
the arn cell. -/
theorem claim3_witness :
    c3out.2.training_jobs = c3st0.training_jobs ++ [c3kw] ∧
    c3st0.heap.length ≤ c3out.1 ∧
    freshGraph c3st0.heap.length (c3fuel + 1) c3out.2.heap c3out.1 = true ∧
    resolve (c3fuel + 1) c3out.2.heap c3out.1 = some c3kwVal ∧
    c3epOut.2.endpoints =
      c3epSt.endpoints ++ [c3epKw ++ [("EndpointArn", c3epSt.heap.length)]] ∧
    c3epSt.heap.length + 1 ≤ c3epOut.1 := by
  have h1 : hcreate_training_job c3fuel c3st0 c3kw = .ok c3out := by decide
  obtain ⟨hs, hco, hval⟩ := claim3_amended.1 c3fuel c3st0 c3kw c3out h1
  obtain ⟨-, hle, hfresh, -, -⟩ := hco
  have h2 : hcreate_endpoint c3fuel c3epSt c3epKw = .ok c3epOut := by decide
  obtain ⟨hs2, hco2, -⟩ := claim3_amended.2.2.2 c3fuel c3epSt c3epKw c3epOut 1
    (.str "ep-1") h2 (by decide) (by decide)
  obtain ⟨-, hle2, -, -, -⟩ := hco2
  refine ⟨hs, hle, hfresh, hval c3kwVal (by decide), hs2, ?_⟩
  simpa using hle2

end SageFaker
